import Mathlib

set_option autoImplicit false

namespace KvStore

/-!
Shallow embedding of the append-only log-structured key-value store of
`src/datastore/db.go`.

Segment files are modelled as lists of byte tokens, the store directory as
an association list from file name to file content, and the store
operations (`Open`, `Put`, `Get`, `Size`, `Close`, compaction) as pure
functions on that state.  The record codec (`entry.Encode` /
`entry.DecodeFromReader`) is not part of `src/`; it is modelled from §4.1
of the specification.
-/

/-- One key-value record (type `entry` of the Go repository). -/
structure entry where
  key : String
  value : String
deriving DecidableEq

/-- Byte tokens of a string: one token per character. -/
def strBytes (s : String) : List Nat := s.data.map Char.toNat

/-- String rebuilt from byte tokens. -/
def tokString (l : List Nat) : String := String.mk (l.map Char.ofNat)

/-- Modelled from the spec: the record codec file (`entry.Encode`) is
missing from `src/`; §4.1 fixes its contract — a pure, injective,
length-prefixed encoding of `(key, value)`.  Each length field is one
token standing for the fixed-width little-endian integer of the on-disk
layout. -/
def entry.Encode (e : entry) : List Nat :=
  e.key.length :: strBytes e.key ++ e.value.length :: strBytes e.value

/-- Decoder outcome: end of input is distinguishable from a malformed
record (§4.1 (d)). -/
inductive DecodeErr
  | eof
  | corrupt
deriving DecidableEq

/-- Modelled from the spec: the streaming decoder
(`entry.DecodeFromReader`, missing from `src/`).  From a valid record
start it consumes exactly the record's bytes and reports the count
consumed (§4.1 (c)); it returns the decoded record, the count and the
remaining input. -/
def DecodeFromReader (l : List Nat) : Except DecodeErr (entry × Nat × List Nat) :=
  match l with
  | [] => .error .eof
  | kl :: r =>
    match r.drop kl with
    | [] => .error .corrupt
    | vl :: r2 =>
      if vl ≤ r2.length then
        .ok (⟨tokString (r.take kl), tokString (r2.take vl)⟩, kl + vl + 2, r2.drop vl)
      else .error .corrupt

/-! ## Association lists

Both the in-memory index (`map[string]SegmentPos`) and the model of the
store directory are association lists with insert-or-replace update. -/

/-- Lookup in an association list (model of Go map read / file lookup). -/
def alookup {β : Type} : List (String × β) → String → Option β
  | [], _ => none
  | p :: r, k => if p.1 = k then some p.2 else alookup r k

/-- Insert-or-replace (model of Go map write / file create-or-truncate). -/
def aset {β : Type} : List (String × β) → String → β → List (String × β)
  | [], k, v => [(k, v)]
  | p :: r, k, v => if p.1 = k then (k, v) :: r else p :: aset r k v

/-- Remove a key (model of `os.Remove`). -/
def aremove {β : Type} : List (String × β) → String → List (String × β)
  | [], _ => []
  | p :: r, k => if p.1 = k then aremove r k else p :: aremove r k

/-! ## File names

`extractNum`, the `%04d` segment file names, and the string tests used by
`Open`'s directory scan (`strings.HasPrefix` / `strings.HasSuffix`,
`strings.SplitN`, `strings.TrimLeft`, `strconv.Atoi`). -/

def dashChar : Char := Char.ofNat 45

def dotChar : Char := Char.ofNat 46

def zeroChar : Char := Char.ofNat 48

def plusChar : Char := Char.ofNat 43

/-- Little-endian decimal digits of `n`; the first argument is fuel
(`n` itself is always enough). -/
def digitsRevF : Nat → Nat → List Nat
  | 0, _ => []
  | f + 1, n => if n = 0 then [] else n % 10 :: digitsRevF f (n / 10)

/-- Decimal digit characters of `n`, most significant first. -/
def natChars (n : Nat) : List Char :=
  if n = 0 then [zeroChar] else ((digitsRevF n n).reverse).map (fun d => Char.ofNat (48 + d))

/-- Left-pad with `'0'` to width `w` (the padding part of Go's `%04d`). -/
def padLeftZeros (s : List Char) (w : Nat) : List Char :=
  List.replicate (w - s.length) zeroChar ++ s

/-- Go's `fmt.Sprintf("%04d", n)`. -/
def pad4 (n : Int) : String :=
  if n < 0 then String.mk (dashChar :: padLeftZeros (natChars (-n).toNat) 3)
  else String.mk (padLeftZeros (natChars n.toNat) 4)

/-- Segment file name `fmt.Sprintf("%s%04d", segmentPrefix, num)`. -/
def segName (n : Int) : String := "segment-" ++ pad4 n

/-- Merge file name `fmt.Sprintf("%s%04d%s", segmentPrefix, num, mergeSuffix)`. -/
def mergeFileName (n : Int) : String := "segment-" ++ pad4 n ++ ".merge"

/-- Split at the first occurrence of `sep` (Go's `strings.SplitN(s, sep, 2)`;
`none` when `sep` does not occur, in which case Go returns a single part). -/
def splitOnce (sep : Char) : List Char → Option (List Char × List Char)
  | [] => none
  | c :: cs =>
    if c = sep then some ([], cs)
    else (splitOnce sep cs).map (fun p => (c :: p.1, p.2))

def isDigitChar (c : Char) : Bool := 48 ≤ c.toNat && c.toNat ≤ 57

def digitsVal (cs : List Char) : Nat := cs.foldl (fun a c => 10 * a + (c.toNat - 48)) 0

/-- Go's `strconv.Atoi`, as used by `extractNum`: optional sign followed by
digits; `0` on a syntax error (the source ignores the error value).
Overflow clamping of `Atoi` is not modelled (4-digit names never overflow). -/
def atoiGo (cs : List Char) : Int :=
  match cs with
  | [] => 0
  | c :: ds =>
    if c = plusChar then
      if ds.isEmpty || !ds.all isDigitChar then 0 else (digitsVal ds : Int)
    else if c = dashChar then
      if ds.isEmpty || !ds.all isDigitChar then 0 else -(digitsVal ds : Int)
    else if (c :: ds).all isDigitChar then (digitsVal (c :: ds) : Int) else 0

/-- `extractNum` of `db.go` lines 108-119: split at the first `-`, trim
leading zeros, parse; `0` for a missing part, an all-zero part, or an
unparsable part. -/
def extractNum (filename : String) : Int :=
  match splitOnce dashChar filename.data with
  | none => 0
  | some p =>
    let t := p.2.dropWhile (fun c => decide (c = zeroChar))
    if t.isEmpty then 0 else atoiGo t

/-- Model of `strings.HasPrefix`. -/
def startsWithM (s pre : String) : Bool :=
  decide (s.data.take pre.data.length = pre.data)

/-- Model of `strings.HasSuffix`. -/
def endsWithM (s suf : String) : Bool :=
  decide (suf.data.length ≤ s.data.length) &&
    decide (s.data.drop (s.data.length - suf.data.length) = suf.data)

/-- The directory-scan filter of `Open` (db.go lines 60-66) and of the
post-compaction rescan (lines 400-406): keep names with the segment
prefix that do not carry the merge suffix. -/
def segFileFilter (name : String) : Bool :=
  startsWithM name "segment-" && !endsWithM name ".merge"

/-- The scan order of segment files: `os.ReadDir` returns names in
lexicographic order and `Open` then sorts with `sort.Slice` by
`extractNum`.  `sort.Slice` is unstable, so any order consistent with
`extractNum` may result; the model resolves ties lexicographically,
which is one admissible outcome. -/
def fileLe (a b : String) : Prop :=
  extractNum a < extractNum b ∨ (extractNum a = extractNum b ∧ a ≤ b)

instance fileLe.decRel : DecidableRel fileLe := fun a b =>
  inferInstanceAs (Decidable (extractNum a < extractNum b ∨ (extractNum a = extractNum b ∧ a ≤ b)))

instance fileLe.isTrans : IsTrans String fileLe := by
  constructor
  intro a b c hab hbc
  rcases hab with h1 | ⟨h1, h1b⟩ <;> rcases hbc with h2 | ⟨h2, h2b⟩
  · exact Or.inl (lt_trans h1 h2)
  · exact Or.inl (h2 ▸ h1)
  · exact Or.inl (h1 ▸ h2)
  · exact Or.inr ⟨h1.trans h2, le_trans h1b h2b⟩

instance fileLe.isTotal : IsTotal String fileLe := by
  constructor
  intro a b
  rcases lt_trichotomy (extractNum a) (extractNum b) with h | h | h
  · exact Or.inl (Or.inl h)
  · rcases le_total a b with hs | hs
    · exact Or.inl (Or.inr ⟨h, hs⟩)
    · exact Or.inr (Or.inr ⟨h.symm, hs⟩)
  · exact Or.inr (Or.inl h)

instance fileLe.isAntisymm : IsAntisymm String fileLe := by
  constructor
  intro a b hab hba
  rcases hab with h1 | ⟨h1, h1b⟩ <;> rcases hba with h2 | ⟨h2, h2b⟩
  · exact absurd (lt_trans h1 h2) (lt_irrefl _)
  · exact absurd (h2 ▸ h1) (lt_irrefl _)
  · exact absurd (h1 ▸ h2) (lt_irrefl _)
  · exact le_antisymm h1b h2b

/-! ## Store state

`Segment` keeps the open file handle's name instead of the handle, and the
`*os.File` contents live in the modelled directory.  The mutexes of `Db`
are not state: every operation below is one critical section of `db.mu`
(`Put`, `Get`, `Size`, `Close`, `performCompaction` each lock it for their
whole body), so operations are modelled as atomic state transformers.  The
compaction flag and wait group are modelled separately. -/

structure Segment where
  num : Int
  name : String
  offset : Nat
deriving DecidableEq

structure SegmentPos where
  segmentNum : Int
  offset : Nat
deriving DecidableEq

/-- The store directory: file name to file content. -/
abbrev Fs : Type := List (String × List Nat)

abbrev Index : Type := List (String × SegmentPos)

structure Db where
  segments : List Segment
  index : Index
  maxSegmentSize : Int
deriving DecidableEq

structure DbState where
  db : Db
  fs : Fs
deriving DecidableEq

/-- `os.Rename`: no-op when the source is absent (the Go call would error;
that path is unreachable in the verified flows), overwrites the target. -/
def fsRename (fs : Fs) (oldName newName : String) : Fs :=
  match alookup fs oldName with
  | none => fs
  | some c => aset (aremove fs oldName) newName c

/-- A write on an open append handle: extends the file's content.  Absent
file means a dangling handle; unreachable under the invariant. -/
def fsAppend (fs : Fs) (name : String) (data : List Nat) : Fs :=
  match alookup fs name with
  | none => fs
  | some c => aset fs name (c ++ data)

/-! ## Record stream scanning (the recovery loop of `recoverSegment`)

Fuel-based so that proofs and concrete evaluation both reduce; the fuel
`l.length` always suffices because every record consumes at least two
bytes. -/

def scanRecsF : Nat → List Nat → Nat → Except Unit (List (entry × Nat))
  | _, [], _ => .ok []
  | 0, _ :: _, _ => .error ()
  | f + 1, l, off =>
    match DecodeFromReader l with
    | .error .eof => .ok []
    | .error .corrupt => .error ()
    | .ok (e, n, rest) => (scanRecsF f rest (off + n)).map (fun t => (e, off) :: t)

/-- Sequence of `(record, offset-of-record-start)` pairs of a segment
file, or an error if a decode fails before end of input. -/
def scanRecs (l : List Nat) (off : Nat) : Except Unit (List (entry × Nat)) :=
  scanRecsF l.length l off

/-! ## Open and recovery (`Open`, `openSegment`, `createNewSegment`,
`recoverSegment` of db.go). -/

/-- The index-building loop of `recoverSegment` (db.go lines 157-183):
decode records in stream order, setting `index[key] = {seg.num, offset}`. -/
def recoverSegM (idx : Index) (segNum : Int) (content : List Nat) : Except Unit Index :=
  (scanRecs content 0).map (fun l =>
    l.foldl (fun ix p => aset ix p.1.key ⟨segNum, p.2⟩) idx)

/-- Recovery over a list of segments in order; reading a segment opens its
file afresh (`os.Open(seg.file.Name())`), which fails if it is absent. -/
def recoverAllM (fs : Fs) : List Segment → Index → Except Unit Index
  | [], idx => .ok idx
  | s :: rest, idx =>
    match alookup fs s.name with
    | none => .error ()
    | some c =>
      match recoverSegM idx s.num c with
      | .error e => .error e
      | .ok idx2 => recoverAllM fs rest idx2

/-- The directory scan of `Open` (db.go lines 54-70): names with the
segment prefix and without the merge suffix, sorted by `extractNum`
(ties resolved lexicographically, see `fileLe`). -/
def dirScan (fs : Fs) : List String :=
  List.insertionSort fileLe ((fs.map Prod.fst).filter segFileFilter)

/-- `openSegment` (db.go lines 139-155): open for append, number from the
name, offset = current size. -/
def openSegM (fs : Fs) (name : String) : Option Segment :=
  (alookup fs name).map (fun c => ⟨extractNum name, name, c.length⟩)

/-- `createNewSegment` (db.go lines 121-137): `O_RDWR|O_CREATE|O_APPEND`
keeps existing content when the file already exists; offset = size. -/
def createNewSegmentM (fs : Fs) (num : Int) : Segment × Fs :=
  let c := (alookup fs (segName num)).getD []
  (⟨num, segName num, c.length⟩, aset fs (segName num) c)

/-- `Open` (db.go lines 49-106): scan the directory, open the segment
files in `extractNum` order, create segment 1 if none, then recover the
index from every segment in order. -/
def OpenDb (fs0 : Fs) (maxSegmentSize : Int) : Except Unit DbState :=
  match (dirScan fs0).mapM (openSegM fs0) with
  | none => .error ()
  | some segs0 =>
    let p := if segs0.isEmpty then
        (fun q => ([q.1], q.2)) (createNewSegmentM fs0 1)
      else (segs0, fs0)
    match recoverAllM p.2 p.1 [] with
    | .error e => .error e
    | .ok idx => .ok ⟨⟨p.1, idx, maxSegmentSize⟩, p.2⟩

/-! ## Put (db.go lines 185-210). -/

/-- The rollover step of `Put` (lines 189-197): the segment that will
receive the write, the new segment list, and the directory after a
possible segment creation.  `getActiveSegment` indexes `segments[len-1]`;
the Go code would panic on an empty list, the model returns a dummy (the
invariant rules the case out). -/
def putTarget (st : DbState) : Segment × List Segment × Fs :=
  let act := st.db.segments.getLastD ⟨0, "", 0⟩
  if st.db.maxSegmentSize ≤ (act.offset : Int) then
    let p := createNewSegmentM st.fs (act.num + 1)
    (p.1, st.db.segments ++ [p.1], p.2)
  else (act, st.db.segments, st.fs)

/-- `Put` (lines 185-210), parametrised by the outcome of the one
fallible operation, the underlying `file.Write` (`wOk`); on failure the
file may carry `part` partially written bytes and `Put` returns the error
before touching index or offset. -/
def PutM (st : DbState) (key value : String) (wOk : Bool) (part : Nat) :
    Except Unit Unit × DbState :=
  let t := putTarget st
  let act := t.1
  let data := (entry.mk key value).Encode
  if wOk then
    (.ok (), ⟨⟨t.2.1.dropLast ++ [⟨act.num, act.name, act.offset + data.length⟩],
      aset st.db.index key ⟨act.num, act.offset⟩,
      st.db.maxSegmentSize⟩, fsAppend t.2.2 act.name data⟩)
  else
    (.error (), ⟨⟨t.2.1, st.db.index, st.db.maxSegmentSize⟩,
      fsAppend t.2.2 act.name (data.take part)⟩)

/-- `Put` with a successful write. -/
def Put (st : DbState) (key value : String) : DbState :=
  (PutM st key value true 0).2

/-! ## Get (db.go lines 212-244). -/

/-- The observable events of one `Get` call, in program order.  `db.mu`
is taken on entry and released by `defer` on return, so `evLock` opens
and `evUnlock` closes every trace. -/
inductive GetEv
  | evLock
  | evLookup
  | evFileOpen
  | evSeek
  | evDecode
  | evUnlock
deriving DecidableEq

inductive GetErr
  | notFound
  | segMissing
  | openFail
  | decodeFail
deriving DecidableEq

/-- `findSegment` (db.go lines 250-257). -/
def findSegmentM (segs : List Segment) (num : Int) : Option Segment :=
  segs.find? (fun s => decide (s.num = num))

/-- `Get` with its event trace: index lookup under the lock, then open a
fresh read handle on the segment file, seek to the recorded offset and
decode one record, returning its value — with no comparison of the
decoded key against the requested one. -/
def GetT (st : DbState) (key : String) : Except GetErr String × List GetEv :=
  match alookup st.db.index key with
  | none => (.error .notFound, [.evLock, .evLookup, .evUnlock])
  | some pos =>
    match findSegmentM st.db.segments pos.segmentNum with
    | none => (.error .segMissing, [.evLock, .evLookup, .evUnlock])
    | some seg =>
      match alookup st.fs seg.name with
      | none => (.error .openFail, [.evLock, .evLookup, .evFileOpen, .evUnlock])
      | some c =>
        match DecodeFromReader (c.drop pos.offset) with
        | .error _ =>
          (.error .decodeFail, [.evLock, .evLookup, .evFileOpen, .evSeek, .evDecode, .evUnlock])
        | .ok (e, _, _) =>
          (.ok e.value, [.evLock, .evLookup, .evFileOpen, .evSeek, .evDecode, .evUnlock])

def GetM (st : DbState) (key : String) : Except GetErr String := (GetT st key).1

/-! ## Size and Close (db.go lines 471-507). -/

/-- `Size`: sum of the sizes of all segment files. -/
def SizeM (st : DbState) : Except Unit Nat :=
  st.db.segments.foldlM (fun acc s =>
    match alookup st.fs s.name with
    | none => Except.error ()
    | some c => Except.ok (acc + c.length)) 0

/-- `Close` awaits in-flight compaction (see the compaction state
machine) and closes every handle; it does not change the directory. -/
def CloseM (st : DbState) : Fs := st.fs

/-! ## Compaction (db.go lines 259-469). -/

/-- `writeMergedData` (lines 459-469): the bytes written to the merge
file, one encoded record per surviving key.  Go iterates the
`mergedKeys` map in unspecified order; the model keeps first-insertion
order, one admissible iteration order. -/
def concatBytes (l : List (String × entry)) : List Nat :=
  l.foldr (fun p acc => p.2.Encode ++ acc) []

/-- `processSegmentForCompaction` (lines 436-457) folded over the sealed
segments: stream-decode each file in segment order and keep
`mergedKeys[record.key] = record` (the `index` argument of the Go
function is unused in its body). -/
def mergeSealed (fs : Fs) : List Segment → List (String × entry) →
    Except Unit (List (String × entry))
  | [], mk => .ok mk
  | s :: rest, mk =>
    match alookup fs s.name with
    | none => .error ()
    | some c =>
      match scanRecs c 0 with
      | .error _ => .error ()
      | .ok l => mergeSealed fs rest (l.foldl (fun m p => aset m p.1.key p.1) mk)

/-- `performCompaction` (lines 294-434).  With fewer than two segments it
is a no-op.  Otherwise: create the merge file, merge all sealed segments,
write the survivors, delete the sealed files, rename the merge file to
segment 1, rename the active segment to segment 2 (unless it already is),
then rebuild segments and index by rescanning the directory.  Error
returns collapse to `.error ()`; all are unreachable under the invariant
proved below. -/
def performCompactionM (st : DbState) : Except Unit DbState :=
  if st.db.segments.length < 2 then .ok st
  else
    let lastSeg := st.db.segments.getLastD ⟨0, "", 0⟩
    let mergeNm := mergeFileName (lastSeg.num + 1)
    let fs1 := aset st.fs mergeNm []
    let sealed := st.db.segments.dropLast
    match mergeSealed fs1 sealed [] with
    | .error e => .error e
    | .ok merged =>
      let fs2 := aset fs1 mergeNm (concatBytes merged)
      let fs3 := sealed.foldl (fun f s => aremove f s.name) fs2
      let fs4 := fsRename fs3 mergeNm (segName 1)
      let fs5 := if lastSeg.name = segName 2 then fs4
        else fsRename fs4 lastSeg.name (segName 2)
      match (dirScan fs5).mapM (openSegM fs5) with
      | none => .error ()
      | some segs2 =>
        match recoverAllM fs5 segs2 [] with
        | .error e => .error e
        | .ok idx2 =>
          if segs2.isEmpty then
            let p := createNewSegmentM fs5 1
            .ok ⟨⟨[p.1], idx2, st.db.maxSegmentSize⟩, p.2⟩
          else .ok ⟨⟨segs2, idx2, st.db.maxSegmentSize⟩, fs5⟩

/-! ## The compaction admission flag (`Compact`, db.go lines 261-287)

`Compact` takes `compactionMu`, tests `isCompacting`, and either returns
at once or sets the flag, increments the wait group and launches the
background task; the task's deferred cleanup clears the flag under the
same mutex.  Each mutex-protected section is one atomic step. -/

structure CompactionState where
  isCompacting : Bool
  running : Nat
deriving DecidableEq

/-- One `Compact()` call: the returned flag tells whether a background
compaction was actually started. -/
def compactRequest (s : CompactionState) : CompactionState × Bool :=
  if s.isCompacting then (s, false)
  else ({ isCompacting := true, running := s.running + 1 }, true)

/-- Termination of a running compaction: the deferred handler clears the
flag; only a started compaction can finish. -/
def compactFinish (s : CompactionState) : CompactionState :=
  { isCompacting := false, running := s.running - 1 }

/-- States reachable from the freshly opened store (no compaction
running) by any interleaving of requests and completions. -/
inductive CompactionReach : CompactionState → Prop
  | init : CompactionReach ⟨false, 0⟩
  | request (s : CompactionState) :
      CompactionReach s → CompactionReach (compactRequest s).1
  | finish (s : CompactionState) :
      CompactionReach s → 0 < s.running → CompactionReach (compactFinish s)

/-- Concatenation of encoded records, as `writeMergedData` produces. -/
def encodeAll (es : List entry) : List Nat :=
  es.foldr (fun e acc => e.Encode ++ acc) []

def withOffsets : List entry → Nat → List (entry × Nat)
  | [], _ => []
  | e :: t, off => (e, off) :: withOffsets t (off + e.Encode.length)

/-! ## The replayed (recovered) index and the record history -/

/-- The records of one segment's file, with offsets. -/
def recsOf (fs : Fs) (s : Segment) : List (entry × Nat) :=
  (scanRecs ((alookup fs s.name).getD []) 0).toOption.getD []

/-- All records of all segments in segment order, tagged with their
positions. -/
def allRecs (fs : Fs) : List Segment → List (entry × SegmentPos)
  | [] => []
  | s :: rest => (recsOf fs s).map (fun p => (p.1, SegmentPos.mk s.num p.2)) ++ allRecs fs rest

/-- The index recovery produces: the fold of `recoverSegment` over the
segments. -/
def replayIdx (fs : Fs) (segs : List Segment) (idx : Index) : Index :=
  segs.foldl (fun ix s =>
    (recsOf fs s).foldl (fun ix2 p => aset ix2 p.1.key ⟨s.num, p.2⟩) ix) idx

/-- The value a `Get` should observe: the value of the last record whose
key matches, scanning all segments in order. -/
def lastVal (st : DbState) (k : String) : Option String :=
  (((allRecs st.fs st.db.segments).filter (fun q => decide (q.1.key = k))).getLast?).map
    (fun q => q.1.value)

/-! ## The store invariant

Every state reachable by `Open`, successful `Put`s, compactions and
close/reopen satisfies `WF`: segments are numbered `1..n` in order and
named canonically, the directory holds exactly the segment files, each
file is a valid record stream whose length is the in-memory
append-offset, and the index is extensionally the recovered index. -/

def contentOK (fs : Fs) (s : Segment) : Prop :=
  (alookup fs s.name).isSome = true ∧
  s.offset = ((alookup fs s.name).getD []).length ∧
  (scanRecs ((alookup fs s.name).getD []) 0).toOption.isSome = true

def natRangeI (n : Nat) : List Int := List.map (fun i : Nat => (i : Int)) (List.range' 1 n)

structure WF (st : DbState) : Prop where
  ne : st.db.segments ≠ []
  nums : st.db.segments.map Segment.num = natRangeI st.db.segments.length
  names : ∀ s ∈ st.db.segments, s.name = segName s.num
  fskeys : (st.fs.map Prod.fst).Perm (st.db.segments.map Segment.name)
  content : ∀ s ∈ st.db.segments, contentOK st.fs s
  idx_eq : ∀ k, alookup st.db.index k = alookup (replayIdx st.fs st.db.segments []) k

/-- A sequence of puts (`db.Put` calls with successful writes). -/
def runPuts (st : DbState) (ops : List (String × String)) : DbState :=
  ops.foldl (fun s p => Put s p.1 p.2) st

/-- The value of the most recent put of a key within an operation list. -/
def lastPut (ops : List (String × String)) (k : String) : Option String :=
  ((ops.filter (fun p => decide (p.1 = k))).getLast?).map Prod.snd

/-- The state `Open` builds over an empty directory: one empty segment
numbered 1 and an empty index. -/
def initState (maxSegmentSize : Int) : DbState :=
  ⟨⟨[⟨1, segName 1, 0⟩], [], maxSegmentSize⟩, [(segName 1, [])]⟩

/-! ## Claim C4: Get does not verify the decoded key -/

/-- A store state whose index entry for `"b"` points at a record whose
key is `"a"` (a stale or corrupted index). -/
def c4State : DbState :=
  ⟨⟨[⟨1, segName 1, ((entry.mk "a" "x").Encode ++ (entry.mk "b" "y").Encode).length⟩],
    [("b", ⟨1, 0⟩)], 100⟩,
    [(segName 1, (entry.mk "a" "x").Encode ++ (entry.mk "b" "y").Encode)]⟩

/-! ## Claim C9: Get lock discipline -/

/-- Whether any file-open, seek or decode event happens before the lock
is released in a `Get` trace. -/
def ioBeforeUnlock (tr : List GetEv) : Bool :=
  (tr.takeWhile (fun ev => !(ev == GetEv.evUnlock))).any
    (fun ev => ev == GetEv.evFileOpen || ev == GetEv.evSeek || ev == GetEv.evDecode)

/-- A directory holding one oddly-named segment file (no parseable
number) next to the regular first segment. -/
def c10Fs : Fs := [("segment-abc", (entry.mk "k" "v").Encode), (segName 1, [])]

/-- The directory after the file manipulations of `performCompaction`
(merge-file write, sealed deletion, renames), with the merged survivor
list as a parameter; let-free restatement of lines 311-388. -/
def compactFs4 (st : DbState) (merged : List (String × entry)) : Fs :=
  fsRename
    (st.db.segments.dropLast.foldl (fun f s => aremove f s.name)
      (aset (aset st.fs (mergeFileName ((st.db.segments.getLastD ⟨0, "", 0⟩).num + 1)) [])
        (mergeFileName ((st.db.segments.getLastD ⟨0, "", 0⟩).num + 1)) (concatBytes merged)))
    (mergeFileName ((st.db.segments.getLastD ⟨0, "", 0⟩).num + 1)) (segName 1)

def compactFs5 (st : DbState) (merged : List (String × entry)) : Fs :=
  if (st.db.segments.getLastD ⟨0, "", 0⟩).name = segName 2 then compactFs4 st merged
  else fsRename (compactFs4 st merged) (st.db.segments.getLastD ⟨0, "", 0⟩).name (segName 2)

/-- The rescan phase of `performCompaction` (lines 390-431). -/
def compactRescan (st : DbState) (merged : List (String × entry)) : Except Unit DbState :=
  match (dirScan (compactFs5 st merged)).mapM (openSegM (compactFs5 st merged)) with
  | none => .error ()
  | some segs2 =>
    match recoverAllM (compactFs5 st merged) segs2 [] with
    | .error e => .error e
    | .ok idx2 =>
      if segs2.isEmpty then
        .ok ⟨⟨[(createNewSegmentM (compactFs5 st merged) 1).1], idx2, st.db.maxSegmentSize⟩,
          (createNewSegmentM (compactFs5 st merged) 1).2⟩
      else .ok ⟨⟨segs2, idx2, st.db.maxSegmentSize⟩, compactFs5 st merged⟩

/-! ## Claim C2: compaction postcondition -/

/-- Two puts of the same key with `maxSegmentSize = 1`: the overwrite
spans the sealed/active boundary. -/
def c2St : DbState := runPuts (initState 1) [("k", "v1"), ("k", "v2")]

def c2St2 : DbState := (performCompactionM c2St).toOption.getD c2St

/-! ## Claim C8: reachable-state segment-list invariant -/

/-- States reachable by the public API from a fresh store over an empty
directory: `Open` of the empty directory, successful `Put`s, completed
compactions, and close-reopen.  `Get` and `Size` do not change state. -/
inductive Reach : DbState → Prop
  | boot (maxSegmentSize : Int) : Reach (initState maxSegmentSize)
  | put (st : DbState) (k v : String) : Reach st → Reach (Put st k v)
  | compact (st st2 : DbState) : Reach st → performCompactionM st = .ok st2 → Reach st2
  | reopen (st st2 : DbState) (max2 : Int) : Reach st →
      OpenDb (CloseM st) max2 = .ok st2 → Reach st2

theorem map_ofNat_toNat (l : List Char) :
    List.map Char.ofNat (List.map Char.toNat l) = l := by
  induction l with
  | nil => rfl
  | cons c t ih => simp [ih, Char.ofNat_toNat]

theorem tokString_strBytes (s : String) : tokString (strBytes s) = s := by
  rw [tokString, strBytes, map_ofNat_toNat]

theorem strBytes_length (s : String) : (strBytes s).length = s.length := by
  rw [strBytes, List.length_map]; rfl

theorem Encode_length (e : entry) :
    e.Encode.length = e.key.length + e.value.length + 2 := by
  simp [entry.Encode, strBytes_length]; omega

/-- Round trip: decoding from a record start consumes exactly the
record's bytes and returns the remaining input unchanged. -/
theorem decode_encode (e : entry) (rest : List Nat) :
    DecodeFromReader (e.Encode ++ rest) = .ok (e, e.Encode.length, rest) := by
  have hk := strBytes_length e.key
  have hv := strBytes_length e.value
  have hshape : e.Encode ++ rest
      = e.key.length :: (strBytes e.key ++ (e.value.length :: (strBytes e.value ++ rest))) := by
    simp [entry.Encode]
  rw [hshape]
  simp only [DecodeFromReader]
  rw [← hk, ← hv]
  simp only [List.drop_left, List.take_left]
  rw [if_pos (by simp [List.length_append])]
  simp [tokString_strBytes, Encode_length, hk, hv]

theorem tokString_length (l : List Nat) : (tokString l).length = l.length := by
  simp [tokString, String.length]

/-- A successful decode consumes at least the two length fields and at
most the whole input, and the remaining input is the dropped suffix. -/
theorem decode_ok_shape (l : List Nat) (e : entry) (n : Nat) (rest : List Nat)
    (h : DecodeFromReader l = .ok (e, n, rest)) :
    rest = l.drop n ∧ 2 ≤ n ∧ n ≤ l.length ∧ n = e.Encode.length := by
  cases l with
  | nil => simp [DecodeFromReader] at h
  | cons kl r =>
    simp only [DecodeFromReader] at h
    split at h
    · exact absurd h (by simp)
    · rename_i vl r2 hd
      split at h
      · rename_i hvl
        simp only [Except.ok.injEq, Prod.mk.injEq] at h
        obtain ⟨he, hn, hr⟩ := h
        have hlen := congrArg List.length hd
        rw [List.length_drop] at hlen
        have hlen2 : r.length - kl = r2.length + 1 := by simpa using hlen
        have hklr : kl < r.length := by omega
        have hr2 : r2 = r.drop (kl + 1) := by
          have h1 := congrArg (List.drop 1) hd
          rw [List.drop_drop] at h1
          simpa using h1.symm
        have henc : e.Encode.length = kl + vl + 2 := by
          rw [← he, Encode_length]
          simp [tokString_length, List.length_take,
            Nat.min_eq_left (le_of_lt hklr), Nat.min_eq_left hvl]
        refine ⟨?_, by omega, by simp only [List.length_cons]; omega, by omega⟩
        rw [← hr, ← hn, hr2, List.drop_drop]
        show List.drop (kl + 1 + vl) r = List.drop (kl + vl + 2) (kl :: r)
        rw [List.drop_succ_cons]
        congr 1
        omega
      · exact absurd h (by simp)

/-- Forward monotonicity: a record decoded from `l` decodes the same way
from `l ++ x` (the decoder only looks at the record's own bytes). -/
theorem decode_append (l x : List Nat) (e : entry) (n : Nat) (rest : List Nat)
    (h : DecodeFromReader l = .ok (e, n, rest)) :
    DecodeFromReader (l ++ x) = .ok (e, n, rest ++ x) := by
  cases l with
  | nil => simp [DecodeFromReader] at h
  | cons kl r =>
    simp only [DecodeFromReader] at h
    split at h
    · exact absurd h (by simp)
    · rename_i vl r2 hd
      split at h
      · rename_i hvl
        have hlen := congrArg List.length hd
        rw [List.length_drop] at hlen
        have hlen2 : r.length - kl = r2.length + 1 := by simpa using hlen
        have hklr : kl ≤ r.length := by omega
        simp only [Except.ok.injEq, Prod.mk.injEq] at h
        obtain ⟨he, hn, hr⟩ := h
        rw [List.cons_append]
        simp only [DecodeFromReader]
        have hdx : (r ++ x).drop kl = vl :: (r2 ++ x) := by
          rw [List.drop_append_of_le_length hklr, hd]; rfl
        have htk : (r ++ x).take kl = r.take kl := List.take_append_of_le_length hklr
        have htv : (r2 ++ x).take vl = r2.take vl := List.take_append_of_le_length hvl
        have hdv : (r2 ++ x).drop vl = r2.drop vl ++ x := List.drop_append_of_le_length hvl
        simp only [hdx]
        rw [if_pos (by simp [List.length_append]; omega)]
        simp [htk, htv, hdv, he, hn, hr]
      · exact absurd h (by simp)

theorem alookup_aset_self {β : Type} (m : List (String × β)) (k : String) (v : β) :
    alookup (aset m k v) k = some v := by
  induction m with
  | nil => simp [aset, alookup]
  | cons p r ih =>
    by_cases h : p.1 = k
    · simp [aset, h, alookup]
    · simp [aset, h, alookup, ih]

theorem alookup_aset_ne {β : Type} (m : List (String × β)) (k k' : String) (v : β)
    (h : k ≠ k') : alookup (aset m k v) k' = alookup m k' := by
  induction m with
  | nil => simp [aset, alookup, h]
  | cons p r ih =>
    by_cases hp : p.1 = k
    · simp [aset, hp, alookup, h]
    · by_cases hp' : p.1 = k'
      · simp [aset, hp, alookup, hp', Ne.symm h]
      · simp [aset, hp, alookup, hp', ih]

theorem keys_aset {β : Type} (m : List (String × β)) (k : String) (v : β) :
    (aset m k v).map Prod.fst
      = if k ∈ m.map Prod.fst then m.map Prod.fst else m.map Prod.fst ++ [k] := by
  induction m with
  | nil => simp [aset]
  | cons p r ih =>
    by_cases h : p.1 = k
    · simp [aset, h]
    · simp only [aset, if_neg h, List.map_cons, List.mem_cons]
      rw [ih]
      by_cases hm : k ∈ r.map Prod.fst
      · simp [hm, h]
      · simp [hm, Ne.symm h]

theorem alookup_eq_none {β : Type} (m : List (String × β)) (k : String)
    (h : k ∉ m.map Prod.fst) : alookup m k = none := by
  induction m with
  | nil => rfl
  | cons p r ih =>
    simp only [List.map_cons, List.mem_cons] at h
    push_neg at h
    simp [alookup, Ne.symm h.1, ih h.2]

theorem alookup_isSome_of_mem {β : Type} (m : List (String × β)) (k : String)
    (h : k ∈ m.map Prod.fst) : (alookup m k).isSome := by
  induction m with
  | nil => simp at h
  | cons p r ih =>
    by_cases hp : p.1 = k
    · simp [alookup, hp]
    · simp only [List.map_cons, List.mem_cons] at h
      rcases h with h | h
      · exact absurd h.symm hp
      · simp [alookup, hp, ih h]

theorem mem_of_alookup_eq_some {β : Type} (m : List (String × β)) (k : String) (v : β)
    (h : alookup m k = some v) : (k, v) ∈ m := by
  induction m with
  | nil => simp [alookup] at h
  | cons p r ih =>
    by_cases hp : p.1 = k
    · simp only [alookup, if_pos hp] at h
      obtain ⟨a, b⟩ := p
      simp only at hp
      subst hp
      obtain rfl := Option.some.inj h
      exact List.mem_cons_self _ _
    · simp only [alookup, if_neg hp] at h
      exact List.mem_cons_of_mem _ (ih h)

theorem alookup_of_mem_nodup {β : Type} (m : List (String × β)) (k : String) (v : β)
    (hnd : (m.map Prod.fst).Nodup) (h : (k, v) ∈ m) : alookup m k = some v := by
  induction m with
  | nil => simp at h
  | cons p r ih =>
    simp only [List.map_cons, List.nodup_cons] at hnd
    rcases List.mem_cons.mp h with h | h
    · subst h; simp [alookup]
    · have hk : p.1 ≠ k := by
        intro he
        exact hnd.1 (he ▸ (List.mem_map.mpr ⟨(k, v), h, rfl⟩))
      simp [alookup, hk, ih hnd.2 h]

theorem nodup_keys_aset {β : Type} (m : List (String × β)) (k : String) (v : β)
    (h : (m.map Prod.fst).Nodup) : ((aset m k v).map Prod.fst).Nodup := by
  rw [keys_aset]
  by_cases hm : k ∈ m.map Prod.fst
  · simpa [hm] using h
  · simp only [hm, if_false]
    simpa [List.nodup_append, hm] using h

/-! Decimal round trip: `extractNum (segName i) = i` for `i ≥ 1`. -/

theorem digitsRevF_zero (f : Nat) : digitsRevF f 0 = [] := by
  cases f <;> simp [digitsRevF]

theorem digitsRevF_foldr (f : Nat) : ∀ n, n ≤ f →
    (digitsRevF f n).foldr (fun d acc => 10 * acc + d) 0 = n := by
  induction f with
  | zero => intro n h; interval_cases n; simp [digitsRevF]
  | succ f ih =>
    intro n h
    by_cases hn : n = 0
    · simp [hn, digitsRevF]
    · have hdiv : n / 10 ≤ f := by
        have := Nat.div_lt_self (Nat.pos_of_ne_zero hn) (by norm_num : 1 < 10)
        omega
      simp only [digitsRevF, if_neg hn, List.foldr_cons, ih (n / 10) hdiv]
      omega

theorem digitsRevF_lt (f : Nat) : ∀ n d, d ∈ digitsRevF f n → d < 10 := by
  induction f with
  | zero => intro n d hd; simp [digitsRevF] at hd
  | succ f ih =>
    intro n d hd
    by_cases hn : n = 0
    · simp [hn, digitsRevF] at hd
    · simp only [digitsRevF, if_neg hn, List.mem_cons] at hd
      rcases hd with hd | hd
      · omega
      · exact ih _ _ hd

theorem digitsRevF_getLast (f : Nat) : ∀ n, n ≤ f → n ≠ 0 →
    digitsRevF f n ≠ [] ∧ ∀ d, (digitsRevF f n).getLast? = some d → d ≠ 0 := by
  induction f with
  | zero => intro n h hn; omega
  | succ f ih =>
    intro n h hn
    by_cases hq : n / 10 = 0
    · have hlt : n < 10 := by omega
      have : digitsRevF (f + 1) n = [n % 10] := by
        simp [digitsRevF, if_neg hn, hq, digitsRevF_zero]
      refine ⟨by simp [this], ?_⟩
      intro d hd
      rw [this] at hd
      simp at hd
      omega
    · have hdiv : n / 10 ≤ f := by
        have := Nat.div_lt_self (Nat.pos_of_ne_zero hn) (by norm_num : 1 < 10)
        omega
      obtain ⟨hne, hlast⟩ := ih (n / 10) hdiv hq
      have : digitsRevF (f + 1) n = n % 10 :: digitsRevF f (n / 10) := by
        simp [digitsRevF, if_neg hn]
      refine ⟨by simp [this], ?_⟩
      intro d hd
      obtain ⟨x, xs, hxx⟩ := List.exists_cons_of_ne_nil hne
      rw [this, hxx, List.getLast?_cons_cons] at hd
      exact hlast d (by rw [hxx]; exact hd)

theorem digitChar_toNat (d : Nat) (h : d < 10) : (Char.ofNat (48 + d)).toNat = 48 + d := by
  interval_cases d <;> decide

theorem digitChar_digit (d : Nat) (h : d < 10) :
    isDigitChar (Char.ofNat (48 + d)) = true := by
  interval_cases d <;> decide

theorem digitChar_ne_zeroChar (d : Nat) (h1 : d < 10) (h2 : d ≠ 0) :
    Char.ofNat (48 + d) ≠ zeroChar := by
  interval_cases d
  · exact absurd rfl h2
  all_goals decide

theorem natChars_ne_nil (n : Nat) : natChars n ≠ [] := by
  by_cases hn : n = 0
  · simp [hn, natChars]
  · have := (digitsRevF_getLast n n le_rfl hn).1
    simp [natChars, if_neg hn, this]

theorem natChars_digits (n : Nat) : ∀ c ∈ natChars n, 48 ≤ c.toNat ∧ c.toNat ≤ 57 := by
  intro c hc
  by_cases hn : n = 0
  · simp [hn, natChars, zeroChar] at hc
    simp [hc]
  · simp only [natChars, if_neg hn, List.mem_map, List.mem_reverse] at hc
    obtain ⟨d, hd, rfl⟩ := hc
    have hlt := digitsRevF_lt n n d hd
    rw [digitChar_toNat d hlt]
    omega

theorem natChars_head_ne_zero (n : Nat) (hn : n ≠ 0) :
    ∀ c, (natChars n).head? = some c → c ≠ zeroChar := by
  intro c hc
  simp only [natChars, if_neg hn, List.head?_map, List.head?_reverse] at hc
  obtain ⟨hne, hlast⟩ := digitsRevF_getLast n n le_rfl hn
  obtain ⟨d, hd, hcd⟩ := Option.map_eq_some'.mp hc
  exact hcd ▸ digitChar_ne_zeroChar d
    (digitsRevF_lt n n d (List.mem_of_mem_getLast? hd)) (hlast d hd)

theorem digitsVal_map (l : List Nat) (h : ∀ d ∈ l, d < 10) : ∀ a : Nat,
    (List.map (fun d => Char.ofNat (48 + d)) l).foldl (fun a c => 10 * a + (c.toNat - 48)) a
      = l.foldl (fun a d => 10 * a + d) a := by
  induction l with
  | nil => intro a; rfl
  | cons d t ih =>
    intro a
    have hd : d < 10 := h d (List.mem_cons_self _ _)
    simp only [List.map_cons, List.foldl_cons, digitChar_toNat d hd]
    rw [ih (fun x hx => h x (List.mem_cons_of_mem _ hx))]
    congr 1
    omega

theorem atoiGo_natChars (n : Nat) (hn : n ≠ 0) : atoiGo (natChars n) = n := by
  match hc : natChars n with
  | [] => exact absurd hc (natChars_ne_nil n)
  | c :: t =>
    have hdig : ∀ x ∈ c :: t, 48 ≤ Char.toNat x ∧ Char.toNat x ≤ 57 := by
      rw [← hc]; exact natChars_digits n
    have hc48 := (hdig c (List.mem_cons_self _ _)).1
    have hplus : ¬c = plusChar := by
      intro he; rw [he] at hc48; revert hc48; decide
    have hdash : ¬c = dashChar := by
      intro he; rw [he] at hc48; revert hc48; decide
    have hall : (c :: t).all isDigitChar = true := by
      rw [List.all_eq_true]
      intro x hx
      have := hdig x hx
      simp [isDigitChar]
      omega
    rw [atoiGo]
    simp only [if_neg hplus, if_neg hdash, hall]
    have hval : digitsVal (c :: t) = n := by
      rw [← hc]
      simp only [natChars, if_neg hn, digitsVal]
      rw [digitsVal_map _ (fun d hd => digitsRevF_lt n n d (by simpa using hd)) 0]
      rw [List.foldl_reverse]
      exact digitsRevF_foldr n n le_rfl
    simp [hval]

theorem dropWhile_replicate_zero (k : Nat) (l : List Char) :
    (List.replicate k zeroChar ++ l).dropWhile (fun c => decide (c = zeroChar))
      = l.dropWhile (fun c => decide (c = zeroChar)) := by
  induction k with
  | zero => rfl
  | succ k ih => simp [List.replicate_succ, List.dropWhile_cons, ih]

theorem dropWhile_natChars (n : Nat) (hn : n ≠ 0) :
    (natChars n).dropWhile (fun c => decide (c = zeroChar)) = natChars n := by
  match hc : natChars n with
  | [] => exact absurd hc (natChars_ne_nil n)
  | c :: t =>
    have hne : c ≠ zeroChar := by
      apply natChars_head_ne_zero n hn
      rw [hc]; rfl
    simp [List.dropWhile_cons, hne]

theorem splitOnce_segment (rest : List Char) :
    splitOnce dashChar ("segment-".data ++ rest) = some ("segment".data, rest) := rfl

theorem extractNum_segName (i : Int) (h : 1 ≤ i) : extractNum (segName i) = i := by
  have hnn : ¬i < 0 := by omega
  have hm : i.toNat ≠ 0 := by omega
  have hdata : (segName i).data
      = "segment-".data ++ (List.replicate (4 - (natChars i.toNat).length) zeroChar
          ++ natChars i.toNat) := by
    rw [segName, String.data_append, pad4, if_neg hnn]
    rfl
  rw [extractNum, hdata, splitOnce_segment]
  simp only
  rw [dropWhile_replicate_zero, dropWhile_natChars _ hm]
  rw [if_neg (by simp [List.isEmpty_iff, natChars_ne_nil])]
  rw [atoiGo_natChars _ hm]
  exact Int.toNat_of_nonneg (by omega)

theorem scanRecsF_congr (f1 : Nat) : ∀ f2 l off, List.length l ≤ f1 → List.length l ≤ f2 →
    scanRecsF f1 l off = scanRecsF f2 l off := by
  induction f1 with
  | zero =>
    intro f2 l off h1 h2
    have : l = [] := List.eq_nil_of_length_eq_zero (by omega)
    subst this
    cases f2 <;> rfl
  | succ f1 ih =>
    intro f2 l off h1 h2
    match l with
    | [] => cases f2 <;> rfl
    | c :: cs =>
      match f2 with
      | 0 => simp at h2
      | g + 1 =>
        show (match DecodeFromReader (c :: cs) with
          | .error .eof => Except.ok []
          | .error .corrupt => Except.error ()
          | .ok (e, n, rest) => (scanRecsF f1 rest (off + n)).map (fun t => (e, off) :: t))
          = (match DecodeFromReader (c :: cs) with
          | .error .eof => Except.ok []
          | .error .corrupt => Except.error ()
          | .ok (e, n, rest) => (scanRecsF g rest (off + n)).map (fun t => (e, off) :: t))
        match hdec : DecodeFromReader (c :: cs) with
        | .error .eof => rfl
        | .error .corrupt => rfl
        | .ok (e, n, rest) =>
          obtain ⟨hrest, hn2, hnle, -⟩ := decode_ok_shape _ _ _ _ hdec
          have hlr : rest.length ≤ f1 ∧ rest.length ≤ g := by
            rw [hrest, List.length_drop]
            simp only [List.length_cons] at h1 h2 hnle ⊢
            omega
          exact congrArg (Except.map fun t => (e, off) :: t) (ih g rest (off + n) hlr.1 hlr.2)

/-- The defining recursion of the scan, free of fuel. -/
theorem scanRecs_eq (l : List Nat) (off : Nat) :
    scanRecs l off = match DecodeFromReader l with
      | .error .eof => .ok []
      | .error .corrupt => .error ()
      | .ok (e, n, rest) => (scanRecs rest (off + n)).map (fun t => (e, off) :: t) := by
  match l with
  | [] => rfl
  | c :: cs =>
    show scanRecsF (cs.length + 1) (c :: cs) off = _
    show (match DecodeFromReader (c :: cs) with
      | .error .eof => Except.ok []
      | .error .corrupt => Except.error ()
      | .ok (e, n, rest) => (scanRecsF cs.length rest (off + n)).map (fun t => (e, off) :: t)) = _
    match hdec : DecodeFromReader (c :: cs) with
    | .error .eof => rfl
    | .error .corrupt => rfl
    | .ok (e, n, rest) =>
      obtain ⟨hrest, hn2, hnle, -⟩ := decode_ok_shape _ _ _ _ hdec
      have hrl : rest.length ≤ cs.length := by
        rw [hrest, List.length_drop]
        simp only [List.length_cons] at hnle ⊢
        omega
      exact congrArg (Except.map fun t => (e, off) :: t)
        (scanRecsF_congr cs.length rest.length rest (off + n) hrl le_rfl)

/-! ## Stream lemmas -/

theorem scanRecs_nil (off : Nat) : scanRecs [] off = .ok [] := rfl

/-- Only the empty input decodes to end-of-input. -/
theorem decode_eof_imp (l : List Nat) (h : DecodeFromReader l = .error .eof) : l = [] := by
  cases l with
  | nil => rfl
  | cons kl r =>
    simp only [DecodeFromReader] at h
    split at h
    · exact absurd h (by simp)
    · split at h <;> exact absurd h (by simp)

/-- Appending one encoded record to a valid stream extends its scan by
one record at offset `off + c.length`. -/
theorem scanRecs_append_encode_bounded (len : Nat) : ∀ c : List Nat, c.length ≤ len →
    ∀ off l e, scanRecs c off = .ok l →
    scanRecs (c ++ entry.Encode e) off = .ok (l ++ [(e, off + c.length)]) := by
  induction len with
  | zero =>
    intro c hc off l e h
    obtain rfl : c = [] := List.eq_nil_of_length_eq_zero (by omega)
    obtain rfl : l = [] := (Except.ok.inj h).symm
    rw [List.nil_append, scanRecs_eq]
    have hdec : DecodeFromReader (entry.Encode e) = .ok (e, e.Encode.length, []) := by
      have := decode_encode e []
      rwa [List.append_nil] at this
    rw [hdec]
    rfl
  | succ len ih =>
    intro c hc off l e h
    match c with
    | [] =>
      obtain rfl : l = [] := (Except.ok.inj h).symm
      rw [List.nil_append, scanRecs_eq]
      have hdec : DecodeFromReader (entry.Encode e) = .ok (e, e.Encode.length, []) := by
        have := decode_encode e []
        rwa [List.append_nil] at this
      rw [hdec]
      rfl
    | b :: bs =>
      rw [scanRecs_eq] at h
      match hdec : DecodeFromReader (b :: bs) with
      | .error .eof => exact absurd (decode_eof_imp _ hdec) (by simp)
      | .error .corrupt => rw [hdec] at h; exact absurd h (by simp)
      | .ok (e1, n, rest) =>
        rw [hdec] at h
        simp only [Except.map] at h
        match hrec : scanRecs rest (off + n) with
        | .error e2 => rw [hrec] at h; exact absurd h (by simp)
        | .ok t =>
          rw [hrec] at h
          obtain rfl : (e1, off) :: t = l := Except.ok.inj h
          obtain ⟨hrest, hn2, hnle, -⟩ := decode_ok_shape _ _ _ _ hdec
          have hlt : rest.length ≤ len := by
            rw [hrest, List.length_drop]
            simp only [List.length_cons] at hnle hc ⊢
            omega
          have hihr := ih rest hlt (off + n) t e hrec
          rw [scanRecs_eq]
          rw [decode_append _ _ _ _ _ hdec]
          simp only [Except.map, hihr]
          have harith : off + n + rest.length = off + (b :: bs).length := by
            rw [hrest, List.length_drop]
            simp only [List.length_cons] at hnle ⊢
            omega
          rw [harith, List.cons_append]

theorem scanRecs_append_encode (c : List Nat) (off : Nat) (l : List (entry × Nat)) (e : entry)
    (h : scanRecs c off = .ok l) :
    scanRecs (c ++ entry.Encode e) off = .ok (l ++ [(e, off + c.length)]) :=
  scanRecs_append_encode_bounded c.length c le_rfl off l e h

theorem scanRecs_encodeAll (es : List entry) : ∀ off,
    scanRecs (encodeAll es) off = .ok (withOffsets es off) := by
  induction es with
  | nil => intro off; rfl
  | cons e t ih =>
    intro off
    show scanRecs (e.Encode ++ encodeAll t) off = _
    rw [scanRecs_eq, decode_encode e (encodeAll t)]
    simp only [Except.map, ih (off + e.Encode.length)]
    rfl

/-- Every scanned record decodes at its recorded offset. -/
theorem scanRecs_mem_decode_bounded (len : Nat) : ∀ c : List Nat, c.length ≤ len →
    ∀ off0 l, scanRecs c off0 = .ok l →
    ∀ e off, (e, off) ∈ l →
      off0 ≤ off ∧ ∃ n r, DecodeFromReader (c.drop (off - off0)) = .ok (e, n, r) := by
  induction len with
  | zero =>
    intro c hc off0 l h e off hmem
    obtain rfl : c = [] := List.eq_nil_of_length_eq_zero (by omega)
    obtain rfl : l = [] := (Except.ok.inj h).symm
    simp at hmem
  | succ len ih =>
    intro c hc off0 l h e off hmem
    match c with
    | [] =>
      obtain rfl : l = [] := (Except.ok.inj h).symm
      simp at hmem
    | b :: bs =>
      rw [scanRecs_eq] at h
      match hdec : DecodeFromReader (b :: bs) with
      | .error .eof => exact absurd (decode_eof_imp _ hdec) (by simp)
      | .error .corrupt => rw [hdec] at h; exact absurd h (by simp)
      | .ok (e1, n, rest) =>
        rw [hdec] at h
        simp only [Except.map] at h
        match hrec : scanRecs rest (off0 + n) with
        | .error e2 => rw [hrec] at h; exact absurd h (by simp)
        | .ok t =>
          rw [hrec] at h
          obtain rfl : (e1, off0) :: t = l := Except.ok.inj h
          obtain ⟨hrest, hn2, hnle, -⟩ := decode_ok_shape _ _ _ _ hdec
          rcases List.mem_cons.mp hmem with hh | hh
          · injection hh with h1 h2
            subst h1
            subst h2
            exact ⟨le_rfl, n, rest, by simpa using hdec⟩
          · have hlt : rest.length ≤ len := by
              rw [hrest, List.length_drop]
              simp only [List.length_cons] at hnle hc ⊢
              omega
            obtain ⟨hle, n2, r2, hd2⟩ := ih rest hlt (off0 + n) t hrec e off hh
            refine ⟨by omega, n2, r2, ?_⟩
            rw [hrest, List.drop_drop] at hd2
            have harith : n + (off - (off0 + n)) = off - off0 := by omega
            rwa [harith] at hd2

theorem scanRecs_mem_decode (c : List Nat) (off0 : Nat) (l : List (entry × Nat))
    (h : scanRecs c off0 = .ok l) (e : entry) (off : Nat) (hmem : (e, off) ∈ l) :
    off0 ≤ off ∧ ∃ n r, DecodeFromReader (c.drop (off - off0)) = .ok (e, n, r) :=
  scanRecs_mem_decode_bounded c.length c le_rfl off0 l h e off hmem

/-! ## Folded index updates -/

/-- Lookup after a fold of keyed inserts: the last matching element wins,
otherwise the initial map answers. -/
theorem alookup_foldl_aset {α β : Type} (kf : α → String) (vf : α → β) :
    ∀ (L : List α) (m0 : List (String × β)) (x : String),
    alookup (L.foldl (fun m p => aset m (kf p) (vf p)) m0) x
      = match (L.filter (fun p => decide (kf p = x))).getLast? with
        | some p => some (vf p)
        | none => alookup m0 x := by
  intro L
  induction L with
  | nil => intro m0 x; rfl
  | cons p t ih =>
    intro m0 x
    rw [List.foldl_cons, ih, List.filter_cons]
    by_cases hp : kf p = x
    · rw [if_pos (by simp [hp])]
      match hft : t.filter (fun q => decide (kf q = x)) with
      | [] =>
        subst hp
        simp [alookup_aset_self]
      | q :: qs =>
        rw [List.getLast?_cons_cons]
        cases hgl : (q :: qs).getLast? with
        | none => exact absurd hgl (by simp)
        | some r => rfl
    · rw [if_neg (by simp [hp])]
      match hft : t.filter (fun q => decide (kf q = x)) with
      | [] => simp [alookup_aset_ne m0 (kf p) x (vf p) hp]
      | q :: qs =>
        cases hgl : (q :: qs).getLast? with
        | none => simp [alookup_aset_ne m0 (kf p) x (vf p) hp]
        | some r => rfl

theorem allRecs_append (fs : Fs) (xs ys : List Segment) :
    allRecs fs (xs ++ ys) = allRecs fs xs ++ allRecs fs ys := by
  induction xs with
  | nil => rfl
  | cons s t ih =>
    show _ ++ allRecs fs (t ++ ys) = (_ ++ allRecs fs t) ++ allRecs fs ys
    rw [ih, List.append_assoc]

theorem replayIdx_eq_foldl (fs : Fs) : ∀ (segs : List Segment) (idx : Index),
    replayIdx fs segs idx
      = (allRecs fs segs).foldl (fun ix q => aset ix q.1.key q.2) idx := by
  intro segs
  induction segs with
  | nil => intro idx; rfl
  | cons s t ih =>
    intro idx
    rw [show allRecs fs (s :: t)
        = (recsOf fs s).map (fun p => (p.1, SegmentPos.mk s.num p.2)) ++ allRecs fs t from rfl]
    rw [List.foldl_append, List.foldl_map]
    rw [show replayIdx fs (s :: t) idx
        = replayIdx fs t ((recsOf fs s).foldl
            (fun ix2 p => aset ix2 p.1.key ⟨s.num, p.2⟩) idx) from rfl]
    rw [ih]

/-- The recovered index maps each key to the position of the last record
carrying it. -/
theorem alookup_replayIdx (fs : Fs) (segs : List Segment) (x : String) :
    alookup (replayIdx fs segs []) x
      = ((allRecs fs segs).filter (fun q => decide (q.1.key = x))).getLast?.map
          (fun q => q.2) := by
  rw [replayIdx_eq_foldl]
  rw [alookup_foldl_aset (fun q : entry × SegmentPos => q.1.key) (fun q => q.2)
    (allRecs fs segs) [] x]
  match hft : (allRecs fs segs).filter (fun q => decide (q.1.key = x)) with
  | [] => rfl
  | q :: qs => cases hgl : (q :: qs).getLast? <;> rfl

theorem natRangeI_nodup (n : Nat) : (natRangeI n).Nodup :=
  (List.nodup_range' 1 n).map (fun a b hab => Int.natCast_inj.mp hab)

theorem mem_natRangeI (n : Nat) (i : Int) (h : i ∈ natRangeI n) : 1 ≤ i ∧ i ≤ n := by
  simp only [natRangeI, List.mem_map] at h
  obtain ⟨j, hj, rfl⟩ := h
  rw [List.mem_range'] at hj
  obtain ⟨m, hm, rfl⟩ := hj
  constructor <;> omega

theorem WF.num_pos {st : DbState} (h : WF st) (s : Segment) (hs : s ∈ st.db.segments) :
    1 ≤ s.num ∧ s.num ≤ st.db.segments.length := by
  have : s.num ∈ natRangeI st.db.segments.length := by
    rw [← h.nums]
    exact List.mem_map.mpr ⟨s, hs, rfl⟩
  exact mem_natRangeI _ _ this

theorem WF.nums_nodup {st : DbState} (h : WF st) :
    (st.db.segments.map Segment.num).Nodup := by
  rw [h.nums]; exact natRangeI_nodup _

theorem WF.names_nodup {st : DbState} (h : WF st) :
    (st.db.segments.map Segment.name).Nodup := by
  have hmap : st.db.segments.map Segment.name
      = (st.db.segments.map Segment.num).map segName := by
    rw [List.map_map]
    exact List.map_congr_left (fun s hs => h.names s hs)
  rw [hmap, h.nums]
  refine (natRangeI_nodup _).map_on ?_
  intro a ha b hb hab
  have ha1 := (mem_natRangeI _ _ ha).1
  have hb1 := (mem_natRangeI _ _ hb).1
  have he : extractNum (segName a) = extractNum (segName b) := by rw [hab]
  rwa [extractNum_segName _ ha1, extractNum_segName _ hb1] at he

theorem find?_segment (segs : List Segment) (s : Segment) (hmem : s ∈ segs)
    (hnd : (segs.map Segment.num).Nodup) : findSegmentM segs s.num = some s := by
  induction segs with
  | nil => simp at hmem
  | cons p t ih =>
    simp only [List.map_cons, List.nodup_cons] at hnd
    rcases List.mem_cons.mp hmem with rfl | hmem2
    · simp [findSegmentM, List.find?_cons_of_pos]
    · have hne : ¬p.num = s.num := by
        intro he
        exact hnd.1 (he ▸ List.mem_map.mpr ⟨s, hmem2, rfl⟩)
      show List.find? _ (p :: t) = some s
      rw [List.find?_cons_of_neg _ (by simpa using hne)]
      exact ih hmem2 hnd.2

theorem allRecs_mem (fs : Fs) (segs : List Segment) (e : entry) (pos : SegmentPos)
    (hmem : (e, pos) ∈ allRecs fs segs) :
    ∃ s ∈ segs, s.num = pos.segmentNum ∧ (e, pos.offset) ∈ recsOf fs s := by
  induction segs with
  | nil => simp [allRecs] at hmem
  | cons p t ih =>
    rw [show allRecs fs (p :: t)
        = (recsOf fs p).map (fun q => (q.1, SegmentPos.mk p.num q.2)) ++ allRecs fs t
        from rfl] at hmem
    rcases List.mem_append.mp hmem with hh | hh
    · obtain ⟨q, hq, hqe⟩ := List.mem_map.mp hh
      injection hqe with h1 h2
      subst h1
      refine ⟨p, List.mem_cons_self _ _, ?_, ?_⟩
      · rw [← h2]
      · have : pos.offset = q.2 := by rw [← h2]
        rw [this]
        exact (show (q.1, q.2) ∈ recsOf fs p by simpa using hq)
    · obtain ⟨s, hs, h1, h2⟩ := ih hh
      exact ⟨s, List.mem_cons_of_mem _ hs, h1, h2⟩

/-- Correctness of `Get` on well-formed states: it returns exactly the
value of the most recent record for the key, or not-found. -/
theorem GetM_eq_lastVal (st : DbState) (h : WF st) (k : String) :
    GetM st k = match lastVal st k with
      | some v => Except.ok v
      | none => Except.error GetErr.notFound := by
  have hidx := h.idx_eq k
  rw [alookup_replayIdx] at hidx
  rw [lastVal]
  match hgl : ((allRecs st.fs st.db.segments).filter (fun q => decide (q.1.key = k))).getLast? with
  | none =>
    rw [hgl] at hidx
    simp only [Option.map_none'] at hidx
    rw [GetM, GetT, hidx]
    simp [hgl]
  | some q =>
    rw [hgl] at hidx
    simp only [Option.map_some'] at hidx
    have hq : q ∈ (allRecs st.fs st.db.segments).filter (fun p => decide (p.1.key = k)) :=
      List.mem_of_mem_getLast? hgl
    obtain ⟨hqall, hqkey⟩ := List.mem_filter.mp hq
    obtain ⟨s, hsmem, hsnum, hrec⟩ := allRecs_mem st.fs st.db.segments q.1 q.2
      (by simpa using hqall)
    obtain ⟨hsome, hoff, hvalid⟩ := h.content s hsmem
    obtain ⟨c, hc⟩ := Option.isSome_iff_exists.mp hsome
    have hcget : (alookup st.fs s.name).getD [] = c := by rw [hc]; rfl
    match hscan : scanRecs c 0 with
    | .error e2 =>
      rw [hcget, hscan] at hvalid
      simp [Except.toOption] at hvalid
    | .ok l =>
      have hrecl : (q.1, q.2.offset) ∈ l := by
        rw [recsOf, hcget, hscan] at hrec
        simpa [Except.toOption] using hrec
      obtain ⟨-, n, r, hdec⟩ := scanRecs_mem_decode c 0 l hscan q.1 q.2.offset hrecl
      rw [Nat.sub_zero] at hdec
      have hfind : findSegmentM st.db.segments q.2.segmentNum = some s := by
        rw [← hsnum]
        exact find?_segment _ _ hsmem h.nums_nodup
      rw [GetM, GetT, hidx]
      simp only [hfind, hc, hdec, hgl]
      rfl

/-! ## Put: rollover characterisation and invariant preservation -/

theorem natRangeI_succ (n : Nat) :
    natRangeI (n + 1) = natRangeI n ++ [((n + 1 : Nat) : Int)] := by
  rw [natRangeI, natRangeI, List.range'_concat, List.map_append]
  norm_num
  omega

theorem aset_aset {β : Type} (m : List (String × β)) (k : String) (v w : β) :
    aset (aset m k v) k w = aset m k w := by
  induction m with
  | nil => simp [aset]
  | cons p r ih =>
    by_cases hp : p.1 = k
    · simp [aset, hp]
    · simp [aset, hp, ih]

theorem allRecs_congr (fs1 fs2 : Fs) : ∀ segs : List Segment,
    (∀ s ∈ segs, alookup fs1 s.name = alookup fs2 s.name) →
    allRecs fs1 segs = allRecs fs2 segs := by
  intro segs
  induction segs with
  | nil => intro _; rfl
  | cons s t ih =>
    intro hcong
    show (recsOf fs1 s).map _ ++ allRecs fs1 t = (recsOf fs2 s).map _ ++ allRecs fs2 t
    rw [ih (fun x hx => hcong x (List.mem_cons_of_mem _ hx))]
    rw [show recsOf fs1 s = recsOf fs2 s from by
      rw [recsOf, recsOf, hcong s (List.mem_cons_self _ _)]]

/-- The last segment: the segment list of a well-formed store ends in the
active segment, whose number is the segment count. -/
theorem segments_concat {st : DbState} (h : WF st) :
    ∃ init lseg, st.db.segments = init ++ [lseg] ∧
      st.db.segments.getLastD ⟨0, "", 0⟩ = lseg ∧
      lseg.num = (st.db.segments.length : Int) := by
  rcases List.eq_nil_or_concat st.db.segments with hnil | ⟨init, lseg, hc⟩
  · exact absurd hnil h.ne
  rw [List.concat_eq_append] at hc
  refine ⟨init, lseg, hc, by rw [hc]; exact List.getLastD_concat _ _ _, ?_⟩
  have hlast := congrArg List.getLast? h.nums
  rw [hc] at hlast
  have hn : st.db.segments.length = init.length + 1 := by rw [hc]; simp
  rw [List.map_append] at hlast
  simp only [List.map_cons, List.map_nil, List.getLast?_concat] at hlast
  have hn2 : (natRangeI (init ++ [lseg]).length).getLast?
      = some ((init.length + 1 : Nat) : Int) := by
    have hl : (init ++ [lseg]).length = init.length + 1 := by simp
    rw [hl, natRangeI_succ, List.getLast?_concat]
  rw [hn2] at hlast
  have hinj := Option.some.inj hlast
  omega

/-- A name numbered above the active segment is not a file of the store. -/
theorem WF.fresh_name {st : DbState} (h : WF st) (m : Int)
    (hm : (st.db.segments.length : Int) < m) : alookup st.fs (segName m) = none := by
  apply alookup_eq_none
  intro hmem
  have hmem2 : segName m ∈ st.db.segments.map Segment.name := (h.fskeys.mem_iff).mp hmem
  obtain ⟨s, hs, hname⟩ := List.mem_map.mp hmem2
  have h1 := h.names s hs
  have hp := h.num_pos s hs
  have : extractNum (segName s.num) = extractNum (segName m) := by rw [← h1, hname]
  rw [extractNum_segName _ hp.1, extractNum_segName _ (by omega)] at this
  omega

theorem putTarget_keep {st : DbState} (init : List Segment) (lseg : Segment)
    (hseg : st.db.segments = init ++ [lseg])
    (hlt : (lseg.offset : Int) < st.db.maxSegmentSize) :
    putTarget st = (lseg, st.db.segments, st.fs) := by
  rw [putTarget, hseg, List.getLastD_concat]
  rw [if_neg (by omega)]

theorem putTarget_roll {st : DbState} (h : WF st) (init : List Segment) (lseg : Segment)
    (hseg : st.db.segments = init ++ [lseg])
    (hge : st.db.maxSegmentSize ≤ (lseg.offset : Int)) :
    putTarget st = (⟨lseg.num + 1, segName (lseg.num + 1), 0⟩,
      st.db.segments ++ [⟨lseg.num + 1, segName (lseg.num + 1), 0⟩],
      aset st.fs (segName (lseg.num + 1)) []) := by
  obtain ⟨init2, lseg2, hseg2, hlastD, hnum⟩ := segments_concat h
  have hle : lseg2 = lseg := by
    have h2 := hlastD
    rw [hseg, List.getLastD_concat] at h2
    exact h2.symm
  have hfresh : alookup st.fs (segName (lseg.num + 1)) = none := by
    apply h.fresh_name
    have hln : lseg.num = (st.db.segments.length : Int) := hle ▸ hnum
    omega
  rw [putTarget, hseg, List.getLastD_concat, if_pos hge]
  rw [createNewSegmentM, hfresh]
  rfl

theorem scanRecs_single (e : entry) : scanRecs e.Encode 0 = .ok [(e, 0)] := by
  have h := scanRecs_append_encode [] 0 [] e rfl
  simpa using h

theorem contentOK_congr {fs1 fs2 : Fs} {s : Segment}
    (hl : alookup fs2 s.name = alookup fs1 s.name) (h : contentOK fs1 s) : contentOK fs2 s := by
  rw [contentOK, hl]
  exact h

theorem notMem_of_alookup_none {β : Type} (m : List (String × β)) (k : String)
    (h : alookup m k = none) : k ∉ m.map Prod.fst := by
  intro hmem
  have := alookup_isSome_of_mem m k hmem
  rw [h] at this
  simp at this

/-- The state after a `Put` that does not roll over. -/
theorem Put_keep_state {st : DbState} (h : WF st) (init : List Segment) (lseg : Segment)
    (hseg : st.db.segments = init ++ [lseg])
    (hlt : (lseg.offset : Int) < st.db.maxSegmentSize) (k v : String) :
    Put st k v = ⟨⟨init ++ [⟨lseg.num, lseg.name,
        lseg.offset + (entry.mk k v).Encode.length⟩],
      aset st.db.index k ⟨lseg.num, lseg.offset⟩, st.db.maxSegmentSize⟩,
      aset st.fs lseg.name
        (((alookup st.fs lseg.name).getD []) ++ (entry.mk k v).Encode)⟩ := by
  obtain ⟨hsome, hoff, hvalid⟩ := h.content lseg (by rw [hseg]; simp)
  obtain ⟨c, hc⟩ := Option.isSome_iff_exists.mp hsome
  rw [Put, PutM]
  simp only [putTarget_keep init lseg hseg hlt, if_true]
  rw [hseg, List.dropLast_concat, fsAppend, hc]
  simp [hc]

/-- The state after a `Put` that rolls over to a fresh segment. -/
theorem Put_roll_state {st : DbState} (h : WF st) (init : List Segment) (lseg : Segment)
    (hseg : st.db.segments = init ++ [lseg])
    (hge : st.db.maxSegmentSize ≤ (lseg.offset : Int)) (k v : String) :
    Put st k v = ⟨⟨st.db.segments ++ [⟨lseg.num + 1, segName (lseg.num + 1),
        (entry.mk k v).Encode.length⟩],
      aset st.db.index k ⟨lseg.num + 1, 0⟩, st.db.maxSegmentSize⟩,
      aset st.fs (segName (lseg.num + 1)) ((entry.mk k v).Encode)⟩ := by
  rw [Put, PutM]
  simp only [putTarget_roll h init lseg hseg hge, if_true]
  rw [List.dropLast_concat, fsAppend]
  simp only [alookup_aset_self, Option.getD_some]
  rw [aset_aset]
  simp

/-- `Put` on a well-formed store preserves the invariant, and extends the
record history with exactly one record at the target segment's pre-write
offset. -/
theorem Put_branches {st : DbState} (h : WF st) (k v : String) :
    WF (Put st k v) ∧
    allRecs (Put st k v).fs (Put st k v).db.segments
      = allRecs st.fs st.db.segments
        ++ [(entry.mk k v, ⟨(putTarget st).1.num, (putTarget st).1.offset⟩)] := by
  obtain ⟨init, lseg, hseg, hlastD, hnum⟩ := segments_concat h
  have hlen : st.db.segments.length = init.length + 1 := by rw [hseg]; simp
  by_cases hcond : st.db.maxSegmentSize ≤ (lseg.offset : Int)
  · -- rollover
    have hpt := putTarget_roll h init lseg hseg hcond
    have hst := Put_roll_state h init lseg hseg hcond k v
    have hfreshL : alookup st.fs (segName (lseg.num + 1)) = none := by
      apply h.fresh_name
      omega
    have hfreshK : segName (lseg.num + 1) ∉ st.fs.map Prod.fst :=
      notMem_of_alookup_none _ _ hfreshL
    set e := entry.mk k v with he
    set nm := segName (lseg.num + 1) with hnm
    set new2 := Segment.mk (lseg.num + 1) nm e.Encode.length with hnew2
    have hlook : ∀ s ∈ st.db.segments, alookup (aset st.fs nm e.Encode) s.name
        = alookup st.fs s.name := by
      intro s hs
      apply alookup_aset_ne
      intro heq
      apply hfreshK
      rw [heq]
      exact h.fskeys.mem_iff.mpr (List.mem_map.mpr ⟨s, hs, rfl⟩)
    have hrec : allRecs (aset st.fs nm e.Encode) (st.db.segments ++ [new2])
        = allRecs st.fs st.db.segments ++ [(e, ⟨lseg.num + 1, 0⟩)] := by
      rw [allRecs_append, allRecs_congr _ _ _ hlook]
      congr 1
      show (recsOf (aset st.fs nm e.Encode) new2).map _ ++ [] = _
      rw [List.append_nil, recsOf]
      rw [show new2.name = nm from rfl, alookup_aset_self]
      rw [show (some e.Encode).getD [] = e.Encode from rfl, scanRecs_single]
      rfl
    constructor
    · constructor
      · rw [hst]; simp
      · rw [hst]
        show (st.db.segments ++ [new2]).map Segment.num
          = natRangeI (st.db.segments ++ [new2]).length
        rw [List.map_append, h.nums]
        have hl2 : (st.db.segments ++ [new2]).length = st.db.segments.length + 1 := by simp
        rw [hl2, natRangeI_succ]
        congr 1
        show [new2.num] = [((st.db.segments.length + 1 : Nat) : Int)]
        have hnn : new2.num = ((st.db.segments.length + 1 : Nat) : Int) := by
          show lseg.num + 1 = ((st.db.segments.length + 1 : Nat) : Int)
          push_cast
          omega
        rw [hnn]
      · rw [hst]
        intro s hs
        rcases List.mem_append.mp hs with hs1 | hs1
        · exact h.names s hs1
        · have hseq2 : s = new2 := by simpa using hs1
          rw [hseq2]
      · rw [hst]
        show ((aset st.fs nm e.Encode).map Prod.fst).Perm
          ((st.db.segments ++ [new2]).map Segment.name)
        rw [keys_aset, if_neg hfreshK, List.map_append]
        exact h.fskeys.append (by rfl)
      · rw [hst]
        intro s hs
        rcases List.mem_append.mp hs with hs1 | hs1
        · exact contentOK_congr (hlook s hs1) (h.content s hs1)
        · have hseq : s = new2 := by simpa using hs1
          rw [hseq, contentOK]
          rw [show new2.name = nm from rfl, alookup_aset_self]
          refine ⟨rfl, rfl, ?_⟩
          rw [show (some e.Encode).getD [] = e.Encode from rfl, scanRecs_single]
          rfl
      · intro x
        rw [hst]
        show alookup (aset st.db.index k ⟨lseg.num + 1, 0⟩) x
          = alookup (replayIdx (aset st.fs nm e.Encode) (st.db.segments ++ [new2]) []) x
        rw [alookup_replayIdx, hrec, List.filter_append]
        by_cases hx : x = k
        · subst hx
          have hfq : List.filter (fun q : entry × SegmentPos => decide (q.1.key = x))
              [(e, (⟨lseg.num + 1, 0⟩ : SegmentPos))]
              = [(e, (⟨lseg.num + 1, 0⟩ : SegmentPos))] := by simp [he]
          rw [hfq, List.getLast?_concat, alookup_aset_self]
          rfl
        · have hfq : List.filter (fun q : entry × SegmentPos => decide (q.1.key = x))
              [(e, (⟨lseg.num + 1, 0⟩ : SegmentPos))] = [] := by simp [he, Ne.symm hx]
          rw [hfq, List.append_nil, alookup_aset_ne _ _ _ _ (Ne.symm hx)]
          rw [h.idx_eq x, alookup_replayIdx]
    · rw [hst, hpt]
      exact hrec
  · -- keep the active segment
    push_neg at hcond
    have hpt := putTarget_keep init lseg hseg hcond
    have hst := Put_keep_state h init lseg hseg hcond k v
    obtain ⟨hsome, hoff, hvalid⟩ := h.content lseg (by rw [hseg]; simp)
    obtain ⟨c, hc⟩ := Option.isSome_iff_exists.mp hsome
    have hcg : (alookup st.fs lseg.name).getD [] = c := by rw [hc]; rfl
    rw [hcg] at hst
    obtain ⟨l, hscan⟩ : ∃ l, scanRecs c 0 = .ok l := by
      rw [hcg] at hvalid
      match hs2 : scanRecs c 0 with
      | .ok l => exact ⟨l, rfl⟩
      | .error e2 => rw [hs2] at hvalid; simp [Except.toOption] at hvalid
    set e := entry.mk k v with he
    set upd := Segment.mk lseg.num lseg.name (lseg.offset + e.Encode.length) with hupd
    have hndn := h.names_nodup
    have hinitne : ∀ s ∈ init, s.name ≠ lseg.name := by
      rw [hseg, List.map_append] at hndn
      have hdisj := List.disjoint_of_nodup_append hndn
      intro s hs heq
      exact hdisj (List.mem_map.mpr ⟨s, hs, rfl⟩) (by rw [heq]; simp)
    have hlook : ∀ s ∈ init,
        alookup (aset st.fs lseg.name (c ++ e.Encode)) s.name = alookup st.fs s.name := by
      intro s hs
      exact alookup_aset_ne _ _ _ _ (fun hx => hinitne s hs hx.symm)
    have hscan2 : scanRecs (c ++ e.Encode) 0 = .ok (l ++ [(e, c.length)]) := by
      have := scanRecs_append_encode c 0 l e hscan
      simpa using this
    have hrecsupd : recsOf (aset st.fs lseg.name (c ++ e.Encode)) upd
        = l ++ [(e, c.length)] := by
      rw [recsOf, show upd.name = lseg.name from rfl, alookup_aset_self]
      rw [show (some (c ++ e.Encode)).getD [] = c ++ e.Encode from rfl, hscan2]
      rfl
    have hrecsold : recsOf st.fs lseg = l := by
      rw [recsOf, hcg, hscan]
      rfl
    have hrec : allRecs (aset st.fs lseg.name (c ++ e.Encode)) (init ++ [upd])
        = allRecs st.fs st.db.segments ++ [(e, ⟨lseg.num, lseg.offset⟩)] := by
      rw [allRecs_append, allRecs_congr _ _ _ hlook, hseg, allRecs_append]
      rw [List.append_assoc]
      congr 1
      show (recsOf _ upd).map _ ++ [] = (recsOf st.fs lseg).map _ ++ [] ++ _
      rw [List.append_nil, hrecsupd, hrecsold, List.map_append, List.append_nil]
      congr 1
      show [(e, SegmentPos.mk upd.num c.length)] = [(e, ⟨lseg.num, lseg.offset⟩)]
      have h1 : upd.num = lseg.num := rfl
      have h2 : lseg.offset = c.length := by rw [hoff, hcg]
      rw [h1, h2]
    constructor
    · constructor
      · rw [hst]; simp
      · rw [hst]
        show (init ++ [upd]).map Segment.num = natRangeI (init ++ [upd]).length
        have hm : (init ++ [upd]).map Segment.num = st.db.segments.map Segment.num := by
          rw [hseg, List.map_append, List.map_append]
          rfl
        have hl : (init ++ [upd]).length = st.db.segments.length := by rw [hseg]; simp
        rw [hm, hl, h.nums]
      · rw [hst]
        intro s hs
        rcases List.mem_append.mp hs with hs1 | hs1
        · exact h.names s (by rw [hseg]; exact List.mem_append_left _ hs1)
        · have : s = upd := by simpa using hs1
          rw [this]
          show lseg.name = segName lseg.num
          exact h.names lseg (by rw [hseg]; simp)
      · rw [hst]
        show ((aset st.fs lseg.name (c ++ e.Encode)).map Prod.fst).Perm
          ((init ++ [upd]).map Segment.name)
        rw [keys_aset, if_pos, List.map_append]
        · have hm : (init ++ [lseg]).map Segment.name
              = init.map Segment.name ++ [lseg.name] := by rw [List.map_append]; rfl
          have := h.fskeys
          rw [hseg, hm] at this
          exact this
        · exact h.fskeys.mem_iff.mpr
            (List.mem_map.mpr ⟨lseg, by rw [hseg]; simp, rfl⟩)
      · rw [hst]
        intro s hs
        rcases List.mem_append.mp hs with hs1 | hs1
        · exact contentOK_congr (hlook s hs1)
            (h.content s (by rw [hseg]; exact List.mem_append_left _ hs1))
        · have hseq : s = upd := by simpa using hs1
          rw [hseq, contentOK]
          rw [show upd.name = lseg.name from rfl, alookup_aset_self]
          refine ⟨rfl, ?_, ?_⟩
          · show upd.offset = (c ++ e.Encode).length
            rw [show upd.offset = lseg.offset + e.Encode.length from rfl]
            rw [List.length_append, hoff, hcg]
          · rw [show (some (c ++ e.Encode)).getD [] = c ++ e.Encode from rfl, hscan2]
            rfl
      · intro x
        rw [hst]
        show alookup (aset st.db.index k ⟨lseg.num, lseg.offset⟩) x
          = alookup (replayIdx (aset st.fs lseg.name (c ++ e.Encode)) (init ++ [upd]) []) x
        rw [alookup_replayIdx, hrec, List.filter_append]
        by_cases hx : x = k
        · subst hx
          have hfq : List.filter (fun q : entry × SegmentPos => decide (q.1.key = x))
              [(e, (⟨lseg.num, lseg.offset⟩ : SegmentPos))]
              = [(e, (⟨lseg.num, lseg.offset⟩ : SegmentPos))] := by simp [he]
          rw [hfq, List.getLast?_concat, alookup_aset_self]
          rfl
        · have hfq : List.filter (fun q : entry × SegmentPos => decide (q.1.key = x))
              [(e, (⟨lseg.num, lseg.offset⟩ : SegmentPos))] = [] := by simp [he, Ne.symm hx]
          rw [hfq, List.append_nil, alookup_aset_ne _ _ _ _ (Ne.symm hx)]
          rw [h.idx_eq x, alookup_replayIdx]
    · rw [hst, hpt]
      exact hrec

theorem Put_WF {st : DbState} (h : WF st) (k v : String) : WF (Put st k v) :=
  (Put_branches h k v).1

theorem Put_allRecs {st : DbState} (h : WF st) (k v : String) :
    allRecs (Put st k v).fs (Put st k v).db.segments
      = allRecs st.fs st.db.segments
        ++ [(entry.mk k v, ⟨(putTarget st).1.num, (putTarget st).1.offset⟩)] :=
  (Put_branches h k v).2

/-! ## Sequences of puts -/

theorem lastVal_Put {st : DbState} (h : WF st) (k v x : String) :
    lastVal (Put st k v) x = if x = k then some v else lastVal st x := by
  rw [lastVal, lastVal, Put_allRecs h k v, List.filter_append]
  by_cases hx : x = k
  · subst hx
    have hfq : List.filter (fun q : entry × SegmentPos => decide (q.1.key = x))
        [(entry.mk x v, ⟨(putTarget st).1.num, (putTarget st).1.offset⟩)]
        = [(entry.mk x v, (⟨(putTarget st).1.num, (putTarget st).1.offset⟩ : SegmentPos))] := by
      simp
    rw [hfq, List.getLast?_concat, if_pos rfl]
    rfl
  · have hfq : List.filter (fun q : entry × SegmentPos => decide (q.1.key = x))
        [(entry.mk k v, ⟨(putTarget st).1.num, (putTarget st).1.offset⟩)] = [] := by
      simp [Ne.symm hx]
    rw [hfq, List.append_nil, if_neg hx]

theorem runPuts_WF {st : DbState} (h : WF st) (ops : List (String × String)) :
    WF (runPuts st ops) := by
  induction ops generalizing st with
  | nil => exact h
  | cons p t ih => exact ih (Put_WF h p.1 p.2)

theorem getLast?_cons_or {α : Type} (p : α) (l : List α) :
    (p :: l).getLast? = l.getLast?.or (some p) := by
  rw [show p :: l = [p] ++ l from rfl, List.getLast?_append]
  rfl

theorem lastPut_cons (p : String × String) (t : List (String × String)) (x : String) :
    lastPut (p :: t) x
      = (lastPut t x).or (if p.1 = x then some p.2 else none) := by
  rw [lastPut, List.filter_cons]
  by_cases hp : p.1 = x
  · rw [if_pos (by simp [hp]), getLast?_cons_or, if_pos hp]
    rw [lastPut]
    cases (List.filter (fun q => decide (q.1 = x)) t).getLast? <;> rfl
  · rw [if_neg (by simp [hp]), if_neg hp, lastPut]
    cases (List.filter (fun q => decide (q.1 = x)) t).getLast? <;> rfl

theorem lastVal_runPuts {st : DbState} (h : WF st) (ops : List (String × String)) (x : String) :
    lastVal (runPuts st ops) x = (lastPut ops x).or (lastVal st x) := by
  induction ops generalizing st with
  | nil => rfl
  | cons p t ih =>
    show lastVal (runPuts (Put st p.1 p.2) t) x = _
    rw [ih (Put_WF h p.1 p.2), lastVal_Put h p.1 p.2 x, lastPut_cons]
    rw [Option.or_assoc]
    congr 1
    by_cases hx : x = p.1
    · rw [if_pos hx, if_pos (hx ▸ rfl)]
      rfl
    · rw [if_neg hx, if_neg (fun hh => hx hh.symm)]
      rfl

/-! ## Directory scans and Open -/

theorem startsWithM_segName (i : Int) : startsWithM (segName i) "segment-" = true := by
  rw [startsWithM, segName, String.data_append, List.take_left]
  simp

theorem zeroChar_toNat : zeroChar.toNat = 48 := by decide

theorem pad4_no_dot (i : Int) : ∀ c ∈ (pad4 i).data, c.toNat ≠ 46 := by
  intro c hc
  rw [pad4] at hc
  by_cases hi : i < 0
  · rw [if_pos hi] at hc
    rw [show (String.mk (dashChar :: padLeftZeros (natChars (-i).toNat) 3)).data
        = dashChar :: padLeftZeros (natChars (-i).toNat) 3 from rfl] at hc
    rcases List.mem_cons.mp hc with rfl | hc2
    · decide
    · rcases List.mem_append.mp hc2 with hc3 | hc3
      · have := List.eq_of_mem_replicate hc3
        subst this
        decide
      · have := natChars_digits _ c hc3
        omega
  · rw [if_neg hi] at hc
    rw [show (String.mk (padLeftZeros (natChars i.toNat) 4)).data
        = padLeftZeros (natChars i.toNat) 4 from rfl] at hc
    rcases List.mem_append.mp hc with hc3 | hc3
    · have := List.eq_of_mem_replicate hc3
      subst this
      decide
    · have := natChars_digits _ c hc3
      omega

theorem segName_no_dot (i : Int) : ∀ c ∈ (segName i).data, c ≠ dotChar := by
  intro c hc heq
  rw [segName, String.data_append] at hc
  rcases List.mem_append.mp hc with hc1 | hc1
  · subst heq
    revert hc1
    decide
  · have := pad4_no_dot i c hc1
    rw [heq] at this
    revert this
    decide

theorem segName_not_merge (i : Int) : endsWithM (segName i) ".merge" = false := by
  by_contra hcon
  have htrue : endsWithM (segName i) ".merge" = true := by
    cases hb : endsWithM (segName i) ".merge"
    · exact absurd hb hcon
    · rfl
  rw [endsWithM, Bool.and_eq_true, decide_eq_true_eq, decide_eq_true_eq] at htrue
  have hdot : dotChar ∈ (segName i).data := by
    apply List.mem_of_mem_drop (n := (segName i).data.length - ".merge".data.length)
    rw [htrue.2]
    decide
  exact segName_no_dot i dotChar hdot rfl

theorem segFileFilter_segName (i : Int) : segFileFilter (segName i) = true := by
  rw [segFileFilter, startsWithM_segName, segName_not_merge]
  rfl

/-- A directory whose files are exactly a `fileLe`-sorted list of segment
names scans to exactly that list. -/
theorem dirScan_eq_of_perm (fs : Fs) (names : List String)
    (hperm : (fs.map Prod.fst).Perm names)
    (hall : ∀ nm ∈ names, segFileFilter nm = true)
    (hsorted : List.Sorted fileLe names) : dirScan fs = names := by
  rw [dirScan]
  have hfil : ((fs.map Prod.fst).filter segFileFilter).Perm names := by
    have h1 := hperm.filter segFileFilter
    rwa [List.filter_eq_self.mpr hall] at h1
  exact List.eq_of_perm_of_sorted ((List.perm_insertionSort _ _).trans hfil)
    (List.sorted_insertionSort _ _) hsorted

theorem WF.names_sorted {st : DbState} (h : WF st) :
    List.Sorted fileLe (st.db.segments.map Segment.name) := by
  have hnums : List.Pairwise (fun a b : Int => a < b) (st.db.segments.map Segment.num) := by
    rw [h.nums, natRangeI]
    rw [List.pairwise_map]
    exact (List.pairwise_lt_range' 1 _).imp (fun hab => by exact_mod_cast hab)
  have hsegs : List.Pairwise (fun a b : Segment => a.num < b.num) st.db.segments :=
    List.pairwise_map.mp hnums
  rw [List.Sorted, List.pairwise_map]
  apply List.Pairwise.imp_of_mem ?_ hsegs
  intro a b ha hb hab
  rw [h.names a ha, h.names b hb, fileLe]
  left
  rw [extractNum_segName _ (h.num_pos a ha).1, extractNum_segName _ (h.num_pos b hb).1]
  exact hab

theorem mapM_openSegM (fs : Fs) : ∀ names : List String,
    (∀ nm ∈ names, (alookup fs nm).isSome = true) →
    names.mapM (openSegM fs)
      = some (names.map (fun nm =>
          ⟨extractNum nm, nm, ((alookup fs nm).getD []).length⟩)) := by
  intro names
  induction names with
  | nil => intro _; rfl
  | cons nm t ih =>
    intro hall
    obtain ⟨c, hc⟩ := Option.isSome_iff_exists.mp (hall nm (List.mem_cons_self _ _))
    rw [List.mapM_cons]
    rw [ih (fun x hx => hall x (List.mem_cons_of_mem _ hx))]
    rw [openSegM, hc]
    simp [hc]

theorem recoverAllM_ok (fs : Fs) : ∀ (segs : List Segment) (idx : Index),
    (∀ s ∈ segs, (alookup fs s.name).isSome = true ∧
      (scanRecs ((alookup fs s.name).getD []) 0).toOption.isSome = true) →
    recoverAllM fs segs idx = .ok (replayIdx fs segs idx) := by
  intro segs
  induction segs with
  | nil => intro idx _; rfl
  | cons s t ih =>
    intro idx hall
    obtain ⟨hsome, hvalid⟩ := hall s (List.mem_cons_self _ _)
    obtain ⟨c, hc⟩ := Option.isSome_iff_exists.mp hsome
    have hcg : (alookup fs s.name).getD [] = c := by rw [hc]; rfl
    obtain ⟨l, hscan⟩ : ∃ l, scanRecs c 0 = .ok l := by
      rw [hcg] at hvalid
      match hs2 : scanRecs c 0 with
      | .ok l => exact ⟨l, rfl⟩
      | .error e2 => rw [hs2] at hvalid; simp [Except.toOption] at hvalid
    simp only [recoverAllM, hc, recoverSegM, hscan, Except.map]
    rw [ih _ (fun x hx => hall x (List.mem_cons_of_mem _ hx))]
    rw [show replayIdx fs (s :: t) idx
        = replayIdx fs t ((recsOf fs s).foldl
            (fun ix2 p => aset ix2 p.1.key ⟨s.num, p.2⟩) idx) from rfl]
    rw [show recsOf fs s = l from by rw [recsOf, hcg, hscan]; rfl]

theorem dirScan_of_WF {st : DbState} (h : WF st) :
    dirScan st.fs = st.db.segments.map Segment.name := by
  apply dirScan_eq_of_perm _ _ h.fskeys
  · intro nm hnm
    obtain ⟨s, hs, rfl⟩ := List.mem_map.mp hnm
    rw [h.names s hs]
    exact segFileFilter_segName _
  · exact h.names_sorted

/-- Reopening the directory of a well-formed store succeeds and restores
the same segments; the index is the replayed one. -/
theorem OpenDb_of_WF {st : DbState} (h : WF st) (max2 : Int) :
    OpenDb st.fs max2
      = .ok ⟨⟨st.db.segments, replayIdx st.fs st.db.segments [], max2⟩, st.fs⟩ := by
  have hscan := dirScan_of_WF h
  have hmap : (st.db.segments.map Segment.name).mapM (openSegM st.fs)
      = some st.db.segments := by
    rw [mapM_openSegM st.fs _ (fun nm hnm => by
      obtain ⟨s, hs, rfl⟩ := List.mem_map.mp hnm
      exact (h.content s hs).1)]
    congr 1
    rw [List.map_map]
    have : ∀ s ∈ st.db.segments,
        ((fun nm => (⟨extractNum nm, nm, ((alookup st.fs nm).getD []).length⟩ : Segment))
          ∘ Segment.name) s = s := by
      intro s hs
      obtain ⟨-, hoff, -⟩ := h.content s hs
      show (⟨extractNum s.name, s.name, ((alookup st.fs s.name).getD []).length⟩ : Segment) = s
      rw [h.names s hs, extractNum_segName _ (h.num_pos s hs).1, ← h.names s hs, ← hoff]
    rw [List.map_congr_left this, List.map_id']
  rw [OpenDb, hscan, hmap]
  have hne : st.db.segments.isEmpty = false := by
    cases hs : st.db.segments
    · exact absurd hs h.ne
    · rfl
  simp only [hne, Bool.false_eq_true, if_false]
  rw [recoverAllM_ok st.fs st.db.segments []
    (fun s hs => ⟨(h.content s hs).1, (h.content s hs).2.2⟩)]

theorem OpenDb_WF {st : DbState} (h : WF st) (max2 : Int) :
    WF ⟨⟨st.db.segments, replayIdx st.fs st.db.segments [], max2⟩, st.fs⟩ := by
  constructor
  · exact h.ne
  · exact h.nums
  · exact h.names
  · exact h.fskeys
  · exact h.content
  · intro k; rfl

theorem OpenDb_empty (maxSegmentSize : Int) :
    OpenDb [] maxSegmentSize = .ok (initState maxSegmentSize) := rfl

theorem initState_WF (maxSegmentSize : Int) : WF (initState maxSegmentSize) := by
  constructor
  · simp [initState]
  · show [(1 : Int)] = natRangeI 1
    rfl
  · intro s hs
    have : s = ⟨1, segName 1, 0⟩ := by simpa [initState] using hs
    rw [this]
  · show [segName 1].Perm [segName 1]
    exact List.Perm.refl _
  · intro s hs
    have hseq : s = ⟨1, segName 1, 0⟩ := by simpa [initState] using hs
    rw [hseq, contentOK]
    show (alookup [(segName 1, [])] (segName 1)).isSome = true ∧ _
    rw [show alookup [(segName 1, [])] (segName 1) = some [] from by simp [alookup]]
    exact ⟨rfl, rfl, rfl⟩
  · intro k
    have hrecs : recsOf (initState maxSegmentSize).fs ⟨1, segName 1, 0⟩ = [] := by
      rw [recsOf]
      rw [show alookup (initState maxSegmentSize).fs (segName 1) = some [] from by
        simp [initState, alookup]]
      rfl
    have hrep : replayIdx (initState maxSegmentSize).fs [⟨1, segName 1, 0⟩] [] = ([] : Index) := by
      show (recsOf (initState maxSegmentSize).fs ⟨1, segName 1, 0⟩).foldl
        (fun ix2 p => aset ix2 p.1.key ⟨(1 : Int), p.2⟩) ([] : Index) = []
      rw [hrecs]
      rfl
    show alookup ([] : Index) k = alookup (replayIdx _ [⟨1, segName 1, 0⟩] []) k
    rw [hrep]

/-! ## More association-list lemmas (for compaction's removals and
renames) -/

theorem alookup_aremove {β : Type} (m : List (String × β)) (k x : String) :
    alookup (aremove m k) x = if x = k then none else alookup m x := by
  induction m with
  | nil => simp [aremove, alookup]
  | cons p r ih =>
    by_cases hp : p.1 = k
    · rw [aremove, if_pos hp, ih]
      by_cases hx : x = k
      · rw [if_pos hx, if_pos hx]
      · rw [if_neg hx, if_neg hx, alookup, if_neg (by rw [hp]; exact fun hh => hx hh.symm)]
    · rw [aremove, if_neg hp]
      by_cases hpx : p.1 = x
      · rw [alookup, if_pos hpx, if_neg (by rw [← hpx]; exact hp)]
        rw [alookup, if_pos hpx]
      · rw [alookup, if_neg hpx, ih, alookup, if_neg hpx]

theorem keys_mem_aset {β : Type} (m : List (String × β)) (k x : String) (v : β) :
    x ∈ (aset m k v).map Prod.fst ↔ x ∈ m.map Prod.fst ∨ x = k := by
  rw [keys_aset]
  by_cases hm : k ∈ m.map Prod.fst
  · rw [if_pos hm]
    constructor
    · exact Or.inl
    · rintro (hx | rfl)
      · exact hx
      · exact hm
  · rw [if_neg hm]
    simp

theorem keys_mem_aremove {β : Type} (m : List (String × β)) (k x : String) :
    x ∈ (aremove m k).map Prod.fst ↔ x ∈ m.map Prod.fst ∧ x ≠ k := by
  induction m with
  | nil => simp [aremove]
  | cons p r ih =>
    by_cases hp : p.1 = k
    · rw [aremove, if_pos hp, ih]
      subst hp
      simp only [List.map_cons, List.mem_cons]
      constructor
      · rintro ⟨h1, h2⟩
        exact ⟨Or.inr h1, h2⟩
      · rintro ⟨h1 | h1, h2⟩
        · exact absurd h1 h2
        · exact ⟨h1, h2⟩
    · rw [aremove, if_neg hp]
      simp only [List.map_cons, List.mem_cons, ih]
      constructor
      · rintro (rfl | ⟨h1, h2⟩)
        · exact ⟨Or.inl rfl, fun hh => hp hh⟩
        · exact ⟨Or.inr h1, h2⟩
      · rintro ⟨h1 | h1, h2⟩
        · exact Or.inl h1
        · exact Or.inr ⟨h1, h2⟩

theorem nodup_keys_aremove {β : Type} (m : List (String × β)) (k : String)
    (h : (m.map Prod.fst).Nodup) : ((aremove m k).map Prod.fst).Nodup := by
  induction m with
  | nil => simp [aremove]
  | cons p r ih =>
    simp only [List.map_cons, List.nodup_cons] at h
    by_cases hp : p.1 = k
    · rw [aremove, if_pos hp]
      exact ih h.2
    · rw [aremove, if_neg hp]
      simp only [List.map_cons, List.nodup_cons]
      refine ⟨?_, ih h.2⟩
      intro hmem
      exact h.1 ((keys_mem_aremove r k p.1).mp hmem).1

/-! ## Claim C1: read-your-writes -/

/-- C1: for every sequence of successful `Put`s on an open (well-formed)
store and every key put in the sequence, `Get` of that key returns the
value of the most recent `Put` of that key. -/
theorem c1_read_your_writes (st : DbState) (ops : List (String × String)) (k v : String)
    (hwf : WF st) (hlast : lastPut ops k = some v) :
    GetM (runPuts st ops) k = .ok v := by
  rw [GetM_eq_lastVal _ (runPuts_WF hwf ops) k, lastVal_runPuts hwf ops k, hlast]
  rfl

theorem c1_witness :
    lastPut [("a", "1"), ("b", "9"), ("a", "2")] "a" = some "2" ∧
    GetM (runPuts (initState 20) [("a", "1"), ("b", "9"), ("a", "2")]) "a" = .ok "2" :=
  ⟨by decide,
    c1_read_your_writes (initState 20) [("a", "1"), ("b", "9"), ("a", "2")] "a" "2"
      (initState_WF 20) (by decide)⟩

/-! ## Claim C3: persistence round-trip -/

/-- C3: closing a well-formed store and opening a new store over the same
directory succeeds and yields the same `Get` result for every key. -/
theorem c3_persistence (st : DbState) (max2 : Int) (hwf : WF st) :
    ∃ st2, OpenDb (CloseM st) max2 = .ok st2 ∧ ∀ k, GetM st2 k = GetM st k := by
  refine ⟨_, OpenDb_of_WF hwf max2, ?_⟩
  intro k
  rw [GetM_eq_lastVal _ (OpenDb_WF hwf max2) k, GetM_eq_lastVal _ hwf k]
  rfl

theorem c3_witness :
    GetM ((OpenDb (CloseM (Put (initState 20) "k" "v")) 20).toOption.getD (initState 20)) "k"
      = GetM (Put (initState 20) "k" "v") "k" ∧
    (OpenDb (CloseM (Put (initState 20) "k" "v")) 20).toOption.isSome = true := by
  obtain ⟨st2, hopen, hget⟩ := c3_persistence (Put (initState 20) "k" "v") 20
    (Put_WF (initState_WF 20) "k" "v")
  rw [hopen]
  exact ⟨hget "k", rfl⟩

/-- C4 counterexample: the record decoded at the indexed offset has key
`"a" ≠ "b"`, yet `Get "b"` returns that record's value `"x"` instead of
surfacing a key-mismatch error — `Get` performs no key verification
(db.go lines 237-243 return `record.value` directly). -/
theorem c4_counterexample :
    alookup c4State.db.index "b" = some ⟨1, 0⟩ ∧
    DecodeFromReader (((alookup c4State.fs (segName 1)).getD []).drop 0)
      = .ok (entry.mk "a" "x", 4, (entry.mk "b" "y").Encode) ∧
    ("a" : String) ≠ "b" ∧
    GetM c4State "b" = .ok "x" := by
  refine ⟨by decide, rfl, by decide, rfl⟩

/-- C4 amended: `Get` decodes the record at the indexed offset and
returns the decoded value unconditionally; the decoded key is never
compared with the requested key, so a mismatch is not surfaced as an
error. -/
theorem c4_amended (st : DbState) (key : String) (pos : SegmentPos) (s : Segment)
    (c : List Nat) (e : entry) (n : Nat) (r : List Nat)
    (h1 : alookup st.db.index key = some pos)
    (h2 : findSegmentM st.db.segments pos.segmentNum = some s)
    (h3 : alookup st.fs s.name = some c)
    (h4 : DecodeFromReader (c.drop pos.offset) = .ok (e, n, r)) :
    GetM st key = .ok e.value := by
  rw [GetM, GetT]
  simp only [h1, h2, h3, h4]

theorem c4_witness :
    GetM c4State "b" = .ok (entry.mk "a" "x").value :=
  c4_amended c4State "b" ⟨1, 0⟩
    ⟨1, segName 1, ((entry.mk "a" "x").Encode ++ (entry.mk "b" "y").Encode).length⟩
    ((entry.mk "a" "x").Encode ++ (entry.mk "b" "y").Encode)
    (entry.mk "a" "x") 4 ((entry.mk "b" "y").Encode)
    (by decide) (by decide) (by decide) rfl

/-! ## Claim C5: segment rollover -/

/-- C5: the size threshold is checked once per `Put` before writing.
Below the threshold the record is appended to the current active segment
unconditionally (even if it pushes the segment past the threshold —
rollover happens only on the next `Put`); at or above it, a segment
numbered one higher is created, appended to the list and made active
before the record is written, and the record lands in the new file. -/
theorem c5_rollover (st : DbState) (init : List Segment) (lseg : Segment) (k v : String)
    (hwf : WF st) (hseg : st.db.segments = init ++ [lseg]) :
    ((lseg.offset : Int) < st.db.maxSegmentSize →
      (Put st k v).db.segments
        = init ++ [⟨lseg.num, lseg.name, lseg.offset + (entry.mk k v).Encode.length⟩] ∧
      alookup (Put st k v).fs lseg.name
        = some (((alookup st.fs lseg.name).getD []) ++ (entry.mk k v).Encode)) ∧
    (st.db.maxSegmentSize ≤ (lseg.offset : Int) →
      (Put st k v).db.segments
        = st.db.segments
          ++ [⟨lseg.num + 1, segName (lseg.num + 1), (entry.mk k v).Encode.length⟩] ∧
      alookup (Put st k v).fs (segName (lseg.num + 1)) = some ((entry.mk k v).Encode)) := by
  constructor
  · intro hlt
    rw [Put_keep_state hwf init lseg hseg hlt k v]
    exact ⟨rfl, alookup_aset_self _ _ _⟩
  · intro hge
    rw [Put_roll_state hwf init lseg hseg hge k v]
    exact ⟨rfl, alookup_aset_self _ _ _⟩

theorem c5_witness :
    (Put (initState 20) "k" "v").db.segments
      = [] ++ [⟨1, segName 1, 0 + (entry.mk "k" "v").Encode.length⟩] ∧
    (Put (Put (initState 1) "k" "v") "j" "w").db.segments
      = (Put (initState 1) "k" "v").db.segments
        ++ [⟨1 + 1, segName (1 + 1), (entry.mk "j" "w").Encode.length⟩] := by
  constructor
  · exact ((c5_rollover (initState 20) [] ⟨1, segName 1, 0⟩ "k" "v"
      (initState_WF 20) rfl).1 (by decide)).1
  · exact ((c5_rollover (Put (initState 1) "k" "v") []
      ⟨1, segName 1, (entry.mk "k" "v").Encode.length⟩ "j" "w"
      (Put_WF (initState_WF 1) "k" "v") (by decide)).2 (by decide)).1

/-! ## Claim C6: Put error atomicity for the index -/

/-- C6: when the underlying append write fails, `Put` returns the error
and the in-memory index is exactly as before the call; on success the
index entry for the key points at the pre-write append-offset of the
target segment, and the target's append-offset advances by the number of
bytes written. -/
theorem c6_put_error_atomicity (st : DbState) (k v : String) (part : Nat) :
    ((PutM st k v false part).1 = .error () ∧
      (PutM st k v false part).2.db.index = st.db.index) ∧
    ((PutM st k v true 0).1 = .ok () ∧
      alookup (PutM st k v true 0).2.db.index k
        = some ⟨(putTarget st).1.num, (putTarget st).1.offset⟩ ∧
      (PutM st k v true 0).2.db.segments.getLast?
        = some ⟨(putTarget st).1.num, (putTarget st).1.name,
            (putTarget st).1.offset + (entry.mk k v).Encode.length⟩) := by
  refine ⟨⟨rfl, rfl⟩, rfl, alookup_aset_self _ _ _, ?_⟩
  show ((putTarget st).2.1.dropLast ++ [_]).getLast? = _
  rw [List.getLast?_concat]

/-! ## Claim C7: compaction mutual exclusion -/

/-- C7: in every reachable state at most one compaction is running, and a
`Compact` request issued while one is in progress returns immediately
with the state unchanged and no new compaction started. -/
theorem c7_compaction_mutex (s : CompactionState) (h : CompactionReach s) :
    s.running ≤ 1 ∧ (s.isCompacting = true → compactRequest s = (s, false)) := by
  have key : ∀ t, CompactionReach t → t.running = (if t.isCompacting then 1 else 0) := by
    intro t ht
    induction ht with
    | init => rfl
    | request u hu ih =>
      rw [compactRequest]
      by_cases hc : u.isCompacting
      · rw [if_pos hc]
        rw [ih, if_pos hc]
      · rw [if_neg hc]
        show u.running + 1 = _
        rw [ih, if_neg hc]
        rfl
    | finish u hu hr ih =>
      show u.running - 1 = _
      rw [ih] at hr ⊢
      by_cases hc : u.isCompacting
      · rw [if_pos hc]
        rfl
      · rw [if_neg hc] at hr
        omega
  constructor
  · rw [key s h]
    split <;> omega
  · intro hc
    rw [compactRequest, if_pos hc]

theorem c7_witness :
    (⟨true, 1⟩ : CompactionState).running ≤ 1 ∧
    ((⟨true, 1⟩ : CompactionState).isCompacting = true →
      compactRequest ⟨true, 1⟩ = (⟨true, 1⟩, false)) :=
  c7_compaction_mutex ⟨true, 1⟩
    (CompactionReach.request ⟨false, 0⟩ CompactionReach.init)

/-- C9 counterexample: `Get` of a present key performs its file open,
seek and decode strictly between taking and releasing `db.mu` (lines
213-214: `Lock` then `defer Unlock`), so the structural lock IS held
across read I/O, contrary to the claim. -/
theorem c9_counterexample :
    ioBeforeUnlock (GetT (Put (initState 20) "k" "v") "k").2 = true := by decide

/-- C9 amended: every `Get` holds the structural lock for its entire
duration — the trace opens with the lock acquisition and closes with the
release, with any index lookup and file I/O in between. -/
theorem c9_amended (st : DbState) (k : String) :
    (GetT st k).2.head? = some GetEv.evLock ∧
    (GetT st k).2.getLast? = some GetEv.evUnlock := by
  rw [GetT]
  split
  · exact ⟨rfl, rfl⟩
  · split
    · exact ⟨rfl, rfl⟩
    · split
      · exact ⟨rfl, rfl⟩
      · split
        · exact ⟨rfl, rfl⟩
        · exact ⟨rfl, rfl⟩

/-! ## Claim C10: lenient segment-name acceptance in Open -/

theorem mapM_some_isSome (fs : Fs) : ∀ (names : List String) (segs : List Segment),
    names.mapM (openSegM fs) = some segs →
    ∀ nm ∈ names, (alookup fs nm).isSome = true := by
  intro names
  induction names with
  | nil => intro segs _ nm hnm; cases hnm
  | cons x t ih =>
    intro segs hm nm hnm
    rw [List.mapM_cons] at hm
    cases hx : openSegM fs x with
    | none => rw [hx] at hm; simp at hm
    | some s =>
      rw [hx] at hm
      cases hmt : t.mapM (openSegM fs) with
      | none => rw [hmt] at hm; simp at hm
      | some ts =>
        rcases List.mem_cons.mp hnm with rfl | hmem
        · cases hl : alookup fs nm with
          | none => rw [openSegM, hl] at hx; cases hx
          | some c => rfl
        · exact ih ts hmt nm hmem

/-- C10: `extractNum` maps `"segment-"`, `"segment-0000"` and
`"segment-abc"` all to 0; every directory entry passing the
prefix/suffix filter is scanned regardless of numeric format; and in any
successful `Open`, each scanned name yields a segment whose number is
`extractNum` of the name, with segment numbers (hence number-0 files
before segment 1) in nondecreasing `extractNum` order. -/
theorem c10_lenient_names :
    (extractNum "segment-" = 0 ∧ extractNum "segment-0000" = 0 ∧
      extractNum "segment-abc" = 0) ∧
    (∀ fs : Fs, ∀ name ∈ fs.map Prod.fst, segFileFilter name = true →
      name ∈ dirScan fs) ∧
    (∀ (fs : Fs) (max2 : Int) (st2 : DbState), OpenDb fs max2 = .ok st2 →
      (∀ name ∈ dirScan fs,
        ∃ s ∈ st2.db.segments, s.name = name ∧ s.num = extractNum name) ∧
      st2.db.segments.Pairwise
        (fun a b : Segment => extractNum a.name ≤ extractNum b.name)) := by
  refine ⟨⟨by decide, by decide, by decide⟩, ?_, ?_⟩
  · intro fs name hmem hfil
    exact (List.perm_insertionSort fileLe _).mem_iff.mpr (List.mem_filter.mpr ⟨hmem, hfil⟩)
  · intro fs max2 st2 hopen
    cases hd : dirScan fs with
    | nil =>
      constructor
      · intro name hname
        cases hname
      · rw [OpenDb, hd] at hopen
        replace hopen :
            (match recoverAllM (createNewSegmentM fs 1).2
                [(createNewSegmentM fs 1).1] ([] : Index) with
              | .error e => Except.error e
              | .ok idx => Except.ok
                  (⟨⟨[(createNewSegmentM fs 1).1], idx, max2⟩,
                    (createNewSegmentM fs 1).2⟩ : DbState)) = Except.ok st2 := hopen
        split at hopen
        · cases hopen
        · cases hopen
          exact List.pairwise_singleton _ _
    | cons nm t =>
      cases hm : List.mapM (openSegM fs) (nm :: t) with
      | none =>
        rw [OpenDb, hd, hm] at hopen
        replace hopen : (Except.error () : Except Unit DbState) = Except.ok st2 := hopen
        cases hopen
      | some segs0 =>
        have hall : ∀ x ∈ nm :: t, (alookup fs x).isSome = true :=
          mapM_some_isSome fs (nm :: t) segs0 hm
        have hm2 := mapM_openSegM fs (nm :: t) hall
        rw [hm] at hm2
        obtain rfl := Option.some.inj hm2
        rw [OpenDb, hd, hm] at hopen
        replace hopen :
            (match recoverAllM fs
                (List.map (fun x =>
                  (⟨extractNum x, x, ((alookup fs x).getD []).length⟩ : Segment)) (nm :: t))
                ([] : Index) with
              | .error e => Except.error e
              | .ok idx => Except.ok
                  (⟨⟨List.map (fun x =>
                      (⟨extractNum x, x, ((alookup fs x).getD []).length⟩ : Segment)) (nm :: t),
                    idx, max2⟩, fs⟩ : DbState)) = Except.ok st2 := hopen
        split at hopen
        · cases hopen
        · cases hopen
          constructor
          · intro name hname
            exact ⟨⟨extractNum name, name, ((alookup fs name).getD []).length⟩,
              List.mem_map_of_mem _ hname, rfl, rfl⟩
          · rw [List.pairwise_map]
            have hsort : List.Sorted fileLe (nm :: t) := by
              rw [← hd]
              exact List.sorted_insertionSort fileLe _
            refine hsort.imp ?_
            intro a b hab
            rcases hab with h | ⟨h, _⟩
            · exact le_of_lt h
            · exact le_of_eq h

theorem c10_witness :
    "segment-abc" ∈ dirScan c10Fs ∧
    (∃ s ∈ ((OpenDb c10Fs 100).toOption.getD (initState 100)).db.segments,
      s.name = "segment-abc" ∧ s.num = extractNum "segment-abc") ∧
    GetM ((OpenDb c10Fs 100).toOption.getD (initState 100)) "k" = .ok "v" := by
  refine ⟨?_, ?_, rfl⟩
  · exact c10_lenient_names.2.1 c10Fs "segment-abc" (by decide) (by decide)
  · exact (c10_lenient_names.2.2 c10Fs 100
      ((OpenDb c10Fs 100).toOption.getD (initState 100)) rfl).1 "segment-abc" (by decide)

/-! ## Compaction proof toolkit -/

theorem alookup_aset {β : Type} (m : List (String × β)) (k : String) (v : β) (x : String) :
    alookup (aset m k v) x = if x = k then some v else alookup m x := by
  by_cases hx : x = k
  · rw [if_pos hx, hx, alookup_aset_self]
  · rw [if_neg hx, alookup_aset_ne m k x v (fun he => hx he.symm)]

theorem endsWithM_append (s t : String) : endsWithM (s ++ t) t = true := by
  simp only [endsWithM, String.data_append, List.length_append]
  have h1 : s.data.length + t.data.length - t.data.length = s.data.length := by omega
  rw [h1, List.drop_left]
  simp

theorem segName_ne_mergeFileName (i j : Int) : segName i ≠ mergeFileName j := by
  intro h
  have h1 := segName_not_merge i
  rw [h] at h1
  have h2 : mergeFileName j = ("segment-" ++ pad4 j) ++ ".merge" := rfl
  rw [h2, endsWithM_append] at h1
  cases h1

theorem segName_inj {a b : Int} (ha : 1 ≤ a) (hb : 1 ≤ b) (h : segName a = segName b) :
    a = b := by
  have h1 := extractNum_segName a ha
  rw [h, extractNum_segName b hb] at h1
  exact h1.symm

theorem natRangeI_getLast? (n : Nat) (h : 1 ≤ n) :
    (natRangeI n).getLast? = some (n : Int) := by
  cases n with
  | zero => omega
  | succ m =>
    rw [natRangeI, List.range'_concat, List.map_append, List.map_singleton,
      List.getLast?_concat]
    have hc : ((1 + 1 * m : Nat) : Int) = ((m + 1 : Nat) : Int) := by push_cast; ring
    rw [hc]

theorem mem_aset {β : Type} (m : List (String × β)) (k : String) (v : β)
    (p : String × β) (h : p ∈ aset m k v) : p ∈ m ∨ p = (k, v) := by
  induction m with
  | nil =>
    rw [aset] at h
    rcases List.mem_singleton.mp h with rfl
    exact Or.inr rfl
  | cons q r ih =>
    by_cases hq : q.1 = k
    · rw [aset, if_pos hq] at h
      rcases List.mem_cons.mp h with rfl | hm
      · exact Or.inr rfl
      · exact Or.inl (List.mem_cons_of_mem _ hm)
    · rw [aset, if_neg hq] at h
      rcases List.mem_cons.mp h with rfl | hm
      · exact Or.inl (List.mem_cons_self _ _)
      · rcases ih hm with hm2 | hm2
        · exact Or.inl (List.mem_cons_of_mem _ hm2)
        · exact Or.inr hm2

theorem merged_pairs (L : List (entry × SegmentPos)) :
    ∀ m0 : List (String × entry), (∀ p ∈ m0, p.2.key = p.1) →
    ∀ p ∈ L.foldl (fun m q => aset m q.1.key q.1) m0, p.2.key = p.1 := by
  induction L with
  | nil => intro m0 h0 p hp; exact h0 p hp
  | cons q t ih =>
    intro m0 h0 p hp
    refine ih (aset m0 q.1.key q.1) ?_ p hp
    intro r hr
    rcases mem_aset m0 q.1.key q.1 r hr with hm | rfl
    · exact h0 r hm
    · rfl

theorem nodup_keys_foldl_aset (L : List (entry × SegmentPos)) :
    ∀ m0 : List (String × entry), (m0.map Prod.fst).Nodup →
    ((L.foldl (fun m q => aset m q.1.key q.1) m0).map Prod.fst).Nodup := by
  induction L with
  | nil => intro m0 h0; exact h0
  | cons q t ih => intro m0 h0; exact ih _ (nodup_keys_aset m0 q.1.key q.1 h0)

theorem alookup_foldl_aremove (L : List Segment) :
    ∀ (f0 : Fs) (x : String),
    alookup (L.foldl (fun f s => aremove f s.name) f0) x
      = if x ∈ L.map Segment.name then none else alookup f0 x := by
  induction L with
  | nil => intro f0 x; simp
  | cons s t ih =>
    intro f0 x
    show alookup (t.foldl (fun f s => aremove f s.name) (aremove f0 s.name)) x = _
    rw [ih (aremove f0 s.name) x, alookup_aremove]
    by_cases hm : x ∈ t.map Segment.name
    · rw [if_pos hm, if_pos (by simp [hm])]
    · rw [if_neg hm]
      by_cases hx : x = s.name
      · rw [if_pos hx, if_pos (by simp [hx])]
      · rw [if_neg hx, if_neg (by simp [hx, hm])]

theorem nodup_keys_foldl_aremove (L : List Segment) :
    ∀ f0 : Fs, (f0.map Prod.fst).Nodup →
    ((L.foldl (fun f s => aremove f s.name) f0).map Prod.fst).Nodup := by
  induction L with
  | nil => intro f0 h0; exact h0
  | cons s t ih => intro f0 h0; exact ih _ (nodup_keys_aremove f0 s.name h0)

theorem scanRecs_concatBytes : ∀ (l : List (String × entry)) (off : Nat),
    ∃ tl : List (entry × Nat), scanRecs (concatBytes l) off = .ok tl ∧
      tl.map Prod.fst = l.map Prod.snd := by
  intro l
  induction l with
  | nil => intro off; exact ⟨[], rfl, rfl⟩
  | cons p t ih =>
    intro off
    obtain ⟨tl', htl', hmap'⟩ := ih (off + p.2.Encode.length)
    have hcb : concatBytes (p :: t) = p.2.Encode ++ concatBytes t := rfl
    refine ⟨(p.2, off) :: tl', ?_, ?_⟩
    · rw [hcb, scanRecs_eq]
      simp only [decode_encode, htl']
      rfl
    · simp [hmap']

theorem mergeSealed_ok (fs : Fs) : ∀ (segs : List Segment) (mk : List (String × entry)),
    (∀ s ∈ segs, (alookup fs s.name).isSome = true ∧
      (scanRecs ((alookup fs s.name).getD []) 0).toOption.isSome = true) →
    mergeSealed fs segs mk
      = .ok ((allRecs fs segs).foldl (fun m q => aset m q.1.key q.1) mk) := by
  intro segs
  induction segs with
  | nil => intro mk _; rfl
  | cons s t ih =>
    intro mk hall
    obtain ⟨hs1, hs2⟩ := hall s (List.mem_cons_self _ _)
    obtain ⟨c, hc⟩ := Option.isSome_iff_exists.mp hs1
    rw [hc, Option.getD_some] at hs2
    cases hsc : scanRecs c 0 with
    | error e => rw [hsc] at hs2; exact Bool.noConfusion hs2
    | ok l =>
      rw [mergeSealed, hc]
      simp only [hsc]
      rw [ih _ (fun x hx => hall x (List.mem_cons_of_mem _ hx))]
      have hrecs : recsOf fs s = l := by
        rw [recsOf, hc]
        simp only [Option.getD_some, hsc]
        rfl
      have ha : allRecs fs (s :: t)
          = (recsOf fs s).map (fun p => (p.1, SegmentPos.mk s.num p.2)) ++ allRecs fs t := rfl
      rw [ha, List.foldl_append, hrecs, List.foldl_map]

theorem assoc_filter_snd (k : String) : ∀ m : List (String × entry),
    (∀ p ∈ m, p.2.key = p.1) → (m.map Prod.fst).Nodup →
    (m.map Prod.snd).filter (fun e => decide (e.key = k))
      = match alookup m k with
        | some e => [e]
        | none => [] := by
  intro m
  induction m with
  | nil => intro _ _; rfl
  | cons p t ih =>
    intro hall hnd
    simp only [List.map_cons, List.nodup_cons] at hnd
    have hpk : p.2.key = p.1 := hall p (List.mem_cons_self _ _)
    have htail := ih (fun x hx => hall x (List.mem_cons_of_mem _ hx)) hnd.2
    by_cases hk : p.1 = k
    · have h1 : List.filter (fun e : entry => decide (e.key = k)) (List.map Prod.snd (p :: t))
          = p.2 :: List.filter (fun e : entry => decide (e.key = k)) (List.map Prod.snd t) := by
        rw [List.map_cons, List.filter_cons]
        simp [hpk, hk]
      have hl : alookup (p :: t) k = some p.2 := by
        show (if p.1 = k then some p.2 else alookup t k) = some p.2
        rw [if_pos hk]
      rw [h1, htail, alookup_eq_none t k (hk ▸ hnd.1), hl]
    · have h1 : List.filter (fun e : entry => decide (e.key = k)) (List.map Prod.snd (p :: t))
          = List.filter (fun e : entry => decide (e.key = k)) (List.map Prod.snd t) := by
        rw [List.map_cons, List.filter_cons]
        simp [hpk, hk]
      have hl : alookup (p :: t) k = alookup t k := by
        show (if p.1 = k then some p.2 else alookup t k) = alookup t k
        rw [if_neg hk]
      rw [h1, htail, hl]

theorem getLastD_eq_getLast {α : Type} (l : List α) (d : α) (h : l ≠ []) :
    l.getLastD d = l.getLast h := by
  rw [List.getLastD_eq_getLast?, List.getLast?_eq_getLast _ h]
  rfl

theorem WF_split {st : DbState} (h : WF st) :
    st.db.segments.dropLast ++ [st.db.segments.getLastD ⟨0, "", 0⟩] = st.db.segments := by
  rw [getLastD_eq_getLast _ _ h.ne]
  exact List.dropLast_concat_getLast h.ne

theorem WF_act_mem {st : DbState} (h : WF st) :
    st.db.segments.getLastD ⟨0, "", 0⟩ ∈ st.db.segments := by
  rw [getLastD_eq_getLast _ _ h.ne]
  exact List.getLast_mem h.ne

theorem WF_act_num {st : DbState} (h : WF st) :
    (st.db.segments.getLastD ⟨0, "", 0⟩).num = (st.db.segments.length : Int) := by
  have hne := h.ne
  have hmap : (List.map Segment.num st.db.segments).getLast?
      = some (st.db.segments.getLastD ⟨0, "", 0⟩).num := by
    rw [List.getLast?_map, List.getLast?_eq_getLast _ hne, getLastD_eq_getLast _ _ hne]
    rfl
  rw [h.nums, natRangeI_getLast? _ (List.length_pos.mpr hne)] at hmap
  exact (Option.some.inj hmap).symm

theorem WF_act_name {st : DbState} (h : WF st) :
    (st.db.segments.getLastD ⟨0, "", 0⟩).name = segName (st.db.segments.length : Int) := by
  rw [h.names _ (WF_act_mem h), WF_act_num h]

theorem WF_sealed {st : DbState} (h : WF st) :
    ∀ s ∈ st.db.segments.dropLast,
      1 ≤ s.num ∧ s.num < (st.db.segments.length : Int) ∧ s.name = segName s.num := by
  intro s hs
  have hsub : s ∈ st.db.segments := (List.dropLast_sublist _).subset hs
  have hname := h.names s hsub
  have hmem : s.num ∈ List.map Segment.num st.db.segments := List.mem_map_of_mem _ hsub
  rw [h.nums] at hmem
  obtain ⟨hb1, hb2⟩ := mem_natRangeI _ _ hmem
  refine ⟨hb1, ?_, hname⟩
  have hnd : (List.map Segment.num st.db.segments).Nodup := by
    rw [h.nums]
    exact natRangeI_nodup _
  rw [← WF_split h, List.map_append] at hnd
  have hdisj := List.disjoint_of_nodup_append hnd
  have hne2 : s.num ≠ (st.db.segments.getLastD ⟨0, "", 0⟩).num := by
    intro he
    refine hdisj (List.mem_map_of_mem _ hs) ?_
    rw [List.map_singleton, he]
    exact List.mem_singleton_self _
  rw [WF_act_num h] at hne2
  omega

theorem WF_keys_nodup {st : DbState} (h : WF st) : (st.fs.map Prod.fst).Nodup := by
  have h1 : st.db.segments.map Segment.name
      = List.map segName (st.db.segments.map Segment.num) := by
    rw [List.map_map]
    exact List.map_eq_map_iff.mpr (fun s hs => h.names s hs)
  have h2 : (st.db.segments.map Segment.name).Nodup := by
    rw [h1, h.nums]
    refine (natRangeI_nodup _).map_on ?_
    intro a ha b hb hab
    exact segName_inj (mem_natRangeI _ _ ha).1 (mem_natRangeI _ _ hb).1 hab
  exact h.fskeys.nodup_iff.mpr h2

theorem performCompactionM_eq (st : DbState) :
    performCompactionM st =
      if st.db.segments.length < 2 then .ok st
      else
        match mergeSealed
            (aset st.fs (mergeFileName ((st.db.segments.getLastD ⟨0, "", 0⟩).num + 1)) [])
            st.db.segments.dropLast [] with
        | .error e => .error e
        | .ok merged => compactRescan st merged := rfl

theorem nodup_keys_fsRename (m : Fs) (old new : String)
    (h : (m.map Prod.fst).Nodup) : ((fsRename m old new).map Prod.fst).Nodup := by
  cases halk : alookup m old with
  | none => rw [fsRename]; simp only [halk]; exact h
  | some c =>
    rw [fsRename]
    simp only [halk]
    exact nodup_keys_aset _ _ _ (nodup_keys_aremove _ _ h)

theorem compactFs4_lookup {st : DbState} (h : WF st)
    (merged : List (String × entry)) (x : String) :
    alookup (compactFs4 st merged) x
      = if x = segName 1 then some (concatBytes merged)
        else if x = mergeFileName ((st.db.segments.getLastD ⟨0, "", 0⟩).num + 1) then none
        else if x ∈ st.db.segments.dropLast.map Segment.name then none
        else alookup st.fs x := by
  have hsealed := WF_sealed h
  have hmne : mergeFileName ((st.db.segments.getLastD ⟨0, "", 0⟩).num + 1)
      ∉ st.db.segments.dropLast.map Segment.name := by
    intro hmem
    obtain ⟨s, hs, heq⟩ := List.mem_map.mp hmem
    exact segName_ne_mergeFileName s.num _ (((hsealed s hs).2.2) ▸ heq)
  have hl3 : ∀ y, alookup (st.db.segments.dropLast.foldl (fun f s => aremove f s.name)
      (aset (aset st.fs (mergeFileName ((st.db.segments.getLastD ⟨0, "", 0⟩).num + 1)) [])
        (mergeFileName ((st.db.segments.getLastD ⟨0, "", 0⟩).num + 1)) (concatBytes merged))) y
      = if y ∈ st.db.segments.dropLast.map Segment.name then none
        else if y = mergeFileName ((st.db.segments.getLastD ⟨0, "", 0⟩).num + 1) then
          some (concatBytes merged)
        else alookup st.fs y := by
    intro y
    rw [alookup_foldl_aremove]
    by_cases hy : y ∈ st.db.segments.dropLast.map Segment.name
    · rw [if_pos hy, if_pos hy]
    · rw [if_neg hy, if_neg hy, alookup_aset, alookup_aset]
      by_cases hym : y = mergeFileName ((st.db.segments.getLastD ⟨0, "", 0⟩).num + 1)
      · rw [if_pos hym, if_pos hym]
      · rw [if_neg hym, if_neg hym, if_neg hym]
  have hl3m : alookup (st.db.segments.dropLast.foldl (fun f s => aremove f s.name)
      (aset (aset st.fs (mergeFileName ((st.db.segments.getLastD ⟨0, "", 0⟩).num + 1)) [])
        (mergeFileName ((st.db.segments.getLastD ⟨0, "", 0⟩).num + 1)) (concatBytes merged)))
      (mergeFileName ((st.db.segments.getLastD ⟨0, "", 0⟩).num + 1))
      = some (concatBytes merged) := by
    rw [hl3, if_neg hmne, if_pos rfl]
  rw [compactFs4, fsRename]
  simp only [hl3m]
  rw [alookup_aset]
  by_cases hx1 : x = segName 1
  · rw [if_pos hx1, if_pos hx1]
  · rw [if_neg hx1, if_neg hx1, alookup_aremove]
    by_cases hxm : x = mergeFileName ((st.db.segments.getLastD ⟨0, "", 0⟩).num + 1)
    · rw [if_pos hxm, if_pos hxm]
    · rw [if_neg hxm, if_neg hxm, hl3, if_neg hxm]

theorem compactFs5_lookup {st : DbState} (h : WF st) (h2 : 2 ≤ st.db.segments.length)
    (merged : List (String × entry)) (x : String) :
    alookup (compactFs5 st merged) x
      = if x = segName 1 then some (concatBytes merged)
        else if x = segName 2 then
          alookup st.fs (st.db.segments.getLastD ⟨0, "", 0⟩).name
        else none := by
  have hsealed := WF_sealed h
  have hactname := WF_act_name h
  have hactnum := WF_act_num h
  have hlen : (2 : Int) ≤ (st.db.segments.length : Int) := by exact_mod_cast h2
  have habsent : ∀ y, y ∉ st.db.segments.dropLast.map Segment.name →
      y ≠ (st.db.segments.getLastD ⟨0, "", 0⟩).name → alookup st.fs y = none := by
    intro y hy1 hy2
    refine alookup_eq_none _ _ ?_
    intro hmem
    have hmem2 : y ∈ st.db.segments.map Segment.name := h.fskeys.subset hmem
    obtain ⟨s, hs, rfl⟩ := List.mem_map.mp hmem2
    rw [← WF_split h] at hs
    rcases List.mem_append.mp hs with hs | hs
    · exact hy1 (List.mem_map_of_mem _ hs)
    · rw [List.mem_singleton.mp hs] at hy2
      exact hy2 rfl
  have hseg2_ne_merge : ∀ i : Int, (segName i : String)
      ≠ mergeFileName ((st.db.segments.getLastD ⟨0, "", 0⟩).num + 1) :=
    fun i => segName_ne_mergeFileName i _
  have hsealed_ne : ∀ i : Int, (st.db.segments.length : Int) ≤ i →
      segName i ∉ st.db.segments.dropLast.map Segment.name := by
    intro i hi hmem
    obtain ⟨s, hs, heq⟩ := List.mem_map.mp hmem
    obtain ⟨hb1, hb2, hb3⟩ := hsealed s hs
    have heq2 := segName_inj hb1 (by omega) (hb3.symm.trans heq)
    omega
  rw [compactFs5]
  by_cases hcase : (st.db.segments.getLastD ⟨0, "", 0⟩).name = segName 2
  · -- the active segment is already named segment 2 (exactly two segments)
    rw [if_pos hcase, compactFs4_lookup h]
    by_cases hx1 : x = segName 1
    · rw [if_pos hx1, if_pos hx1]
    · rw [if_neg hx1, if_neg hx1]
      by_cases hx2 : x = segName 2
      · rw [if_pos hx2, if_neg ?hm2, if_neg ?hns, hcase, hx2]
        case hm2 =>
          rw [hx2]
          exact hseg2_ne_merge 2
        case hns =>
          rw [hx2]
          refine hsealed_ne 2 ?_
          have hn2 : (st.db.segments.length : Int) = 2 := by
            rw [hactname] at hcase
            exact segName_inj (by omega) (by omega) hcase
          omega
      · rw [if_neg hx2]
        by_cases hxm : x = mergeFileName ((st.db.segments.getLastD ⟨0, "", 0⟩).num + 1)
        · rw [if_pos hxm]
        · rw [if_neg hxm]
          by_cases hxs : x ∈ st.db.segments.dropLast.map Segment.name
          · rw [if_pos hxs]
          · rw [if_neg hxs]
            exact habsent x hxs (fun he => hx2 (he.trans hcase))
  · -- the active segment is renamed to segment 2 (three or more segments)
    have hn3 : (3 : Int) ≤ (st.db.segments.length : Int) := by
      rcases lt_or_le (st.db.segments.length : Int) 3 with hlt | hge
      · exfalso
        have he2 : (st.db.segments.length : Int) = 2 := by omega
        rw [hactname, he2] at hcase
        exact hcase rfl
      · exact hge
    have hact4 : alookup (compactFs4 st merged)
        (st.db.segments.getLastD ⟨0, "", 0⟩).name
        = alookup st.fs (st.db.segments.getLastD ⟨0, "", 0⟩).name := by
      rw [compactFs4_lookup h, if_neg ?hg1, if_neg ?hg2, if_neg ?hg3]
      case hg1 =>
        rw [hactname]
        intro he
        have := segName_inj (by omega : (1:Int) ≤ (st.db.segments.length : Int)) (by omega) he
        omega
      case hg2 =>
        rw [hactname]
        exact hseg2_ne_merge _
      case hg3 =>
        rw [hactname]
        exact hsealed_ne _ (by omega)
    obtain ⟨cact, hcact⟩ := Option.isSome_iff_exists.mp (h.content _ (WF_act_mem h)).1
    rw [if_neg hcase, fsRename, hact4, hcact]
    show alookup (aset (aremove (compactFs4 st merged)
      (st.db.segments.getLastD ⟨0, "", 0⟩).name) (segName 2) cact) x = _
    rw [alookup_aset]
    by_cases hx2 : x = segName 2
    · rw [if_pos hx2, if_neg ?h21, if_pos hx2]
      case h21 =>
        intro he
        have := segName_inj (by omega : (1:Int) ≤ 2) (by omega : (1:Int) ≤ 1)
          (hx2.symm.trans he)
        omega
    · rw [if_neg hx2, alookup_aremove]
      by_cases hxa : x = (st.db.segments.getLastD ⟨0, "", 0⟩).name
      · rw [if_pos hxa, if_neg ?h1a, if_neg hx2]
        case h1a =>
          rw [hxa, hactname]
          intro he
          have := segName_inj (by omega : (1:Int) ≤ (st.db.segments.length : Int))
            (by omega) he
          omega
      · rw [if_neg hxa, compactFs4_lookup h]
        by_cases hx1 : x = segName 1
        · rw [if_pos hx1, if_pos hx1]
        · rw [if_neg hx1, if_neg hx1, if_neg hx2]
          by_cases hxm : x = mergeFileName ((st.db.segments.getLastD ⟨0, "", 0⟩).num + 1)
          · rw [if_pos hxm]
          · rw [if_neg hxm]
            by_cases hxs : x ∈ st.db.segments.dropLast.map Segment.name
            · rw [if_pos hxs]
            · rw [if_neg hxs]
              exact habsent x hxs hxa

theorem compactFs5_nodup {st : DbState} (h : WF st) (merged : List (String × entry)) :
    ((compactFs5 st merged).map Prod.fst).Nodup := by
  have h4 : ((compactFs4 st merged).map Prod.fst).Nodup := by
    rw [compactFs4]
    refine nodup_keys_fsRename _ _ _ ?_
    refine nodup_keys_foldl_aremove _ _ ?_
    exact nodup_keys_aset _ _ _ (nodup_keys_aset _ _ _ (WF_keys_nodup h))
  rw [compactFs5]
  by_cases hcase : (st.db.segments.getLastD ⟨0, "", 0⟩).name = segName 2
  · rw [if_pos hcase]
    exact h4
  · rw [if_neg hcase]
    exact nodup_keys_fsRename _ _ _ h4

theorem option_map_or {α β : Type} (f : α → β) (a b : Option α) :
    (a.or b).map f = (a.map f).or (b.map f) := by
  cases a <;> rfl

theorem tagged_filter_last (l : List (entry × Nat)) (num : Int) (k : String) :
    (((l.map (fun p => (p.1, SegmentPos.mk num p.2))).filter
        (fun q => decide (q.1.key = k))).getLast?).map (fun q => q.1.value)
      = ((l.filter (fun p => decide (p.1.key = k))).getLast?).map (fun p => p.1.value) := by
  rw [List.filter_map, List.getLast?_map, Option.map_map]
  rfl

theorem entry_filter_last (l : List (entry × Nat)) (es : List entry) (k : String)
    (h : l.map Prod.fst = es) :
    ((l.filter (fun p => decide (p.1.key = k))).getLast?).map (fun p => p.1.value)
      = ((es.filter (fun e => decide (e.key = k))).getLast?).map (fun e => e.value) := by
  subst h
  rw [List.filter_map, List.getLast?_map, Option.map_map]
  rfl

/-- The central compaction theorem: on a well-formed store with at least
two segments, `performCompaction` succeeds, leaves exactly two segments,
restores the invariant, and preserves the last-record value of every
key. -/
theorem performCompaction_spec {st : DbState} (h : WF st)
    (h2 : 2 ≤ st.db.segments.length) :
    ∃ st2, performCompactionM st = .ok st2 ∧
      st2.db.segments.length = 2 ∧ WF st2 ∧
      (∀ k, lastVal st2 k = lastVal st k) := by
  have hactname := WF_act_name h
  have hsealed := WF_sealed h
  have hsplit := WF_split h
  obtain ⟨hactsome, hactoff, hactscan⟩ := h.content _ (WF_act_mem h)
  obtain ⟨cact, hcact⟩ := Option.isSome_iff_exists.mp hactsome
  rw [hcact, Option.getD_some] at hactscan
  cases hsc : scanRecs cact 0 with
  | error e =>
    rw [hsc] at hactscan
    exact Bool.noConfusion hactscan
  | ok lact =>
  have hfs1look : ∀ s ∈ st.db.segments.dropLast,
      alookup (aset st.fs
        (mergeFileName ((st.db.segments.getLastD ⟨0, "", 0⟩).num + 1)) []) s.name
        = alookup st.fs s.name := by
    intro s hs
    refine alookup_aset_ne _ _ _ _ ?_
    obtain ⟨hb1, _, hb3⟩ := hsealed s hs
    rw [hb3]
    exact (segName_ne_mergeFileName s.num _).symm
  have hmsreq : ∀ s ∈ st.db.segments.dropLast,
      (alookup (aset st.fs
        (mergeFileName ((st.db.segments.getLastD ⟨0, "", 0⟩).num + 1)) []) s.name).isSome
          = true ∧
      (scanRecs ((alookup (aset st.fs
        (mergeFileName ((st.db.segments.getLastD ⟨0, "", 0⟩).num + 1)) []) s.name).getD [])
        0).toOption.isSome = true := by
    intro s hs
    rw [hfs1look s hs]
    exact ⟨(h.content s ((List.dropLast_sublist _).subset hs)).1,
      (h.content s ((List.dropLast_sublist _).subset hs)).2.2⟩
  have hms := mergeSealed_ok _ _ [] hmsreq
  rw [allRecs_congr _ st.fs _ hfs1look] at hms
  have hmk : ∀ p ∈ (allRecs st.fs st.db.segments.dropLast).foldl
      (fun m q => aset m q.1.key q.1) ([] : List (String × entry)), p.2.key = p.1 :=
    merged_pairs _ [] (fun p hp => absurd hp (List.not_mem_nil p))
  have hmnd : (((allRecs st.fs st.db.segments.dropLast).foldl
      (fun m q => aset m q.1.key q.1) ([] : List (String × entry))).map Prod.fst).Nodup :=
    nodup_keys_foldl_aset _ [] List.nodup_nil
  have hmlook : ∀ x, alookup ((allRecs st.fs st.db.segments.dropLast).foldl
      (fun m q => aset m q.1.key q.1) ([] : List (String × entry))) x
      = ((allRecs st.fs st.db.segments.dropLast).filter
          (fun q => decide (q.1.key = x))).getLast?.map (fun q => q.1) := by
    intro x
    rw [alookup_foldl_aset (fun q : entry × SegmentPos => q.1.key)
      (fun q : entry × SegmentPos => q.1) _ [] x]
    cases hg : ((allRecs st.fs st.db.segments.dropLast).filter
        (fun q => decide (q.1.key = x))).getLast? with
    | none => rfl
    | some p => rfl
  obtain ⟨tl, htl, htlmap⟩ := scanRecs_concatBytes
    ((allRecs st.fs st.db.segments.dropLast).foldl
      (fun m q => aset m q.1.key q.1) ([] : List (String × entry))) 0
  set merged := (allRecs st.fs st.db.segments.dropLast).foldl
    (fun m q => aset m q.1.key q.1) ([] : List (String × entry)) with hmdef
  have h5l := compactFs5_lookup h h2 merged
  have h12 : (segName 1 : String) ≠ segName 2 := by
    intro he
    have := segName_inj (by omega : (1:Int) ≤ 1) (by omega : (1:Int) ≤ 2) he
    omega
  have h5a : alookup (compactFs5 st merged) (segName 1) = some (concatBytes merged) := by
    rw [h5l, if_pos rfl]
  have h5b : alookup (compactFs5 st merged) (segName 2) = some cact := by
    rw [h5l, if_neg (Ne.symm h12), if_pos rfl, hcact]
  have h5c : ∀ x, x ≠ segName 1 → x ≠ segName 2 →
      alookup (compactFs5 st merged) x = none := by
    intro x hx1 hx2
    rw [h5l, if_neg hx1, if_neg hx2]
  have hperm : ((compactFs5 st merged).map Prod.fst).Perm [segName 1, segName 2] := by
    refine (List.perm_ext_iff_of_nodup (compactFs5_nodup h merged) ?_).mpr ?_
    · exact List.nodup_cons.mpr
        ⟨fun hm => h12 (List.mem_singleton.mp hm), List.nodup_singleton _⟩
    · intro a
      constructor
      · intro ha
        by_cases ha1 : a = segName 1
        · rw [ha1]
          exact List.mem_cons_self _ _
        by_cases ha2 : a = segName 2
        · rw [ha2]
          exact List.mem_cons_of_mem _ (List.mem_singleton_self _)
        · exfalso
          have hsome := alookup_isSome_of_mem _ _ ha
          rw [h5c a ha1 ha2] at hsome
          exact Bool.noConfusion hsome
      · intro ha
        rcases List.mem_cons.mp ha with rfl | ha
        · exact List.mem_map.mpr ⟨_, mem_of_alookup_eq_some _ _ _ h5a, rfl⟩
        · rcases List.mem_singleton.mp ha with rfl
          exact List.mem_map.mpr ⟨_, mem_of_alookup_eq_some _ _ _ h5b, rfl⟩
  have hscan5 : dirScan (compactFs5 st merged) = [segName 1, segName 2] := by
    refine dirScan_eq_of_perm _ _ hperm ?_ ?_
    · intro nm hnm
      rcases List.mem_cons.mp hnm with rfl | hnm
      · exact segFileFilter_segName 1
      · rcases List.mem_singleton.mp hnm with rfl
        exact segFileFilter_segName 2
    · refine List.sorted_cons.mpr ⟨?_, List.sorted_singleton _⟩
      intro b hb
      rcases List.mem_singleton.mp hb with rfl
      left
      rw [extractNum_segName 1 (by omega), extractNum_segName 2 (by omega)]
      omega
  have hall5 : ∀ nm ∈ [segName 1, segName 2],
      (alookup (compactFs5 st merged) nm).isSome = true := by
    intro nm hnm
    rcases List.mem_cons.mp hnm with rfl | hnm
    · rw [h5a]
      rfl
    · rcases List.mem_singleton.mp hnm with rfl
      rw [h5b]
      rfl
  have hmapm : ([segName 1, segName 2] : List String).mapM (openSegM (compactFs5 st merged))
      = some [⟨1, segName 1, (concatBytes merged).length⟩, ⟨2, segName 2, cact.length⟩] := by
    rw [mapM_openSegM _ _ hall5, List.map_cons, List.map_cons, List.map_nil, h5a, h5b,
      Option.getD_some, Option.getD_some, extractNum_segName 1 (by omega),
      extractNum_segName 2 (by omega)]
  have hrec : recoverAllM (compactFs5 st merged)
      [⟨1, segName 1, (concatBytes merged).length⟩, ⟨2, segName 2, cact.length⟩] []
      = .ok (replayIdx (compactFs5 st merged)
          [⟨1, segName 1, (concatBytes merged).length⟩, ⟨2, segName 2, cact.length⟩] []) := by
    refine recoverAllM_ok _ _ _ ?_
    intro s hs
    rcases List.mem_cons.mp hs with rfl | hs
    · show (alookup (compactFs5 st merged) (segName 1)).isSome = true ∧
        (scanRecs ((alookup (compactFs5 st merged) (segName 1)).getD []) 0).toOption.isSome
          = true
      rw [h5a, Option.getD_some, htl]
      exact ⟨rfl, rfl⟩
    · rcases List.mem_singleton.mp hs with rfl
      show (alookup (compactFs5 st merged) (segName 2)).isSome = true ∧
        (scanRecs ((alookup (compactFs5 st merged) (segName 2)).getD []) 0).toOption.isSome
          = true
      rw [h5b, Option.getD_some, hsc]
      exact ⟨rfl, rfl⟩
  have hrec1 : recsOf (compactFs5 st merged) ⟨1, segName 1, (concatBytes merged).length⟩
      = tl := by
    show (scanRecs ((alookup (compactFs5 st merged) (segName 1)).getD []) 0).toOption.getD []
      = tl
    rw [h5a, Option.getD_some, htl]
    rfl
  have hrec2 : recsOf (compactFs5 st merged) ⟨2, segName 2, cact.length⟩ = lact := by
    show (scanRecs ((alookup (compactFs5 st merged) (segName 2)).getD []) 0).toOption.getD []
      = lact
    rw [h5b, Option.getD_some, hsc]
    rfl
  have hrecact : recsOf st.fs (st.db.segments.getLastD ⟨0, "", 0⟩) = lact := by
    show (scanRecs ((alookup st.fs
      (st.db.segments.getLastD ⟨0, "", 0⟩).name).getD []) 0).toOption.getD [] = lact
    rw [hcact, Option.getD_some, hsc]
    rfl
  have hAR : allRecs (compactFs5 st merged)
      [⟨1, segName 1, (concatBytes merged).length⟩, ⟨2, segName 2, cact.length⟩]
      = tl.map (fun p => (p.1, SegmentPos.mk 1 p.2))
        ++ lact.map (fun p => (p.1, SegmentPos.mk 2 p.2)) := by
    show (recsOf (compactFs5 st merged) ⟨1, segName 1, (concatBytes merged).length⟩).map
        (fun p => (p.1, SegmentPos.mk 1 p.2))
      ++ ((recsOf (compactFs5 st merged) ⟨2, segName 2, cact.length⟩).map
        (fun p => (p.1, SegmentPos.mk 2 p.2)) ++ []) = _
    rw [hrec1, hrec2, List.append_nil]
  have hARact : allRecs st.fs [st.db.segments.getLastD ⟨0, "", 0⟩]
      = lact.map (fun p =>
          (p.1, SegmentPos.mk (st.db.segments.getLastD ⟨0, "", 0⟩).num p.2)) := by
    show (recsOf st.fs (st.db.segments.getLastD ⟨0, "", 0⟩)).map
        (fun p => (p.1, SegmentPos.mk (st.db.segments.getLastD ⟨0, "", 0⟩).num p.2)) ++ []
      = _
    rw [hrecact, List.append_nil]
  refine ⟨⟨⟨[⟨1, segName 1, (concatBytes merged).length⟩, ⟨2, segName 2, cact.length⟩],
    replayIdx (compactFs5 st merged)
      [⟨1, segName 1, (concatBytes merged).length⟩, ⟨2, segName 2, cact.length⟩] [],
    st.db.maxSegmentSize⟩, compactFs5 st merged⟩, ?_, rfl, ?_, ?_⟩
  · -- the computation of performCompaction
    rw [performCompactionM_eq, if_neg (by omega : ¬st.db.segments.length < 2)]
    simp only [hms]
    simp only [compactRescan, hscan5, hmapm, hrec]
    rfl
  · -- well-formedness of the result
    refine ⟨List.cons_ne_nil _ _, rfl, ?_, hperm, ?_, fun k => rfl⟩
    · intro s hs
      rcases List.mem_cons.mp hs with rfl | hs
      · rfl
      · rcases List.mem_singleton.mp hs with rfl
        rfl
    · intro s hs
      rcases List.mem_cons.mp hs with rfl | hs
      · refine ⟨?_, ?_, ?_⟩
        · show (alookup (compactFs5 st merged) (segName 1)).isSome = true
          rw [h5a]
          rfl
        · show (concatBytes merged).length
            = ((alookup (compactFs5 st merged) (segName 1)).getD []).length
          rw [h5a, Option.getD_some]
        · show (scanRecs ((alookup (compactFs5 st merged) (segName 1)).getD [])
            0).toOption.isSome = true
          rw [h5a, Option.getD_some, htl]
          rfl
      · rcases List.mem_singleton.mp hs with rfl
        refine ⟨?_, ?_, ?_⟩
        · show (alookup (compactFs5 st merged) (segName 2)).isSome = true
          rw [h5b]
          rfl
        · show cact.length
            = ((alookup (compactFs5 st merged) (segName 2)).getD []).length
          rw [h5b, Option.getD_some]
        · show (scanRecs ((alookup (compactFs5 st merged) (segName 2)).getD [])
            0).toOption.isSome = true
          rw [h5b, Option.getD_some, hsc]
          rfl
  · -- every key's last record value is preserved
    intro k
    show ((allRecs (compactFs5 st merged)
        [⟨1, segName 1, (concatBytes merged).length⟩,
          ⟨2, segName 2, cact.length⟩]).filter
        (fun q => decide (q.1.key = k))).getLast?.map (fun q => q.1.value)
      = ((allRecs st.fs st.db.segments).filter
          (fun q => decide (q.1.key = k))).getLast?.map (fun q => q.1.value)
    rw [hAR, ← hsplit, allRecs_append, hARact, List.filter_append, List.filter_append,
      List.getLast?_append, List.getLast?_append, option_map_or, option_map_or,
      tagged_filter_last lact 2 k,
      tagged_filter_last lact (st.db.segments.getLastD ⟨0, "", 0⟩).num k,
      tagged_filter_last tl 1 k]
    have hsealedside : ((tl.filter (fun p => decide (p.1.key = k))).getLast?).map
        (fun p => p.1.value)
        = (((allRecs st.fs st.db.segments.dropLast).filter
            (fun q => decide (q.1.key = k))).getLast?).map (fun q => q.1.value) := by
      rw [entry_filter_last tl (merged.map Prod.snd) k htlmap,
        assoc_filter_snd k merged hmk hmnd, hmlook k]
      cases hsl : ((allRecs st.fs st.db.segments.dropLast).filter
          (fun q => decide (q.1.key = k))).getLast? with
      | none => rfl
      | some q => rfl
    rw [hsealedside]

theorem performCompaction_noop {st : DbState} (h2 : st.db.segments.length < 2) :
    performCompactionM st = .ok st := by
  rw [performCompactionM_eq, if_pos h2]

/-- C2 counterexample (to the strict-decrease part): `c2St` has two
segments and the key `"k"` was overwritten (two records with the same
key), yet compaction leaves `Size` unchanged at 10 bytes: the stale
sealed record for `"k"` survives the merge because
`processSegmentForCompaction` (db.go lines 436-457) never consults the
index, so it keeps the last record *within the sealed segments* even
when the active segment holds a newer one. -/
theorem c2_counterexample :
    2 ≤ c2St.db.segments.length ∧
    ((allRecs c2St.fs c2St.db.segments).map (fun q => (q.1.key, q.1.value)))
      = [("k", "v1"), ("k", "v2")] ∧
    performCompactionM c2St = .ok c2St2 ∧
    SizeM c2St = .ok 10 ∧
    SizeM c2St2 = .ok 10 := by
  refine ⟨by decide, rfl, rfl, rfl, rfl⟩

/-- C2 amended: with fewer than two segments compaction is a no-op; with
at least two (on a well-formed store) it succeeds, leaves exactly two
segments, restores the invariant, and preserves every `Get` result.  The
claimed strict `Size` decrease under an overwrite is dropped (refuted by
the counterexample); parts (a), (c) and the no-op clause are confirmed. -/
theorem c2_amended (st : DbState) (hwf : WF st) :
    (st.db.segments.length < 2 → performCompactionM st = .ok st) ∧
    (2 ≤ st.db.segments.length →
      ∃ st2, performCompactionM st = .ok st2 ∧ st2.db.segments.length = 2 ∧ WF st2 ∧
        ∀ k, GetM st2 k = GetM st k) := by
  refine ⟨fun hlt => performCompaction_noop hlt, fun hge => ?_⟩
  obtain ⟨st2, heq, hlen, hwf2, hval⟩ := performCompaction_spec hwf hge
  refine ⟨st2, heq, hlen, hwf2, ?_⟩
  intro k
  rw [GetM_eq_lastVal _ hwf2 k, GetM_eq_lastVal _ hwf k, hval k]

theorem c2_witness :
    performCompactionM c2St = .ok c2St2 ∧ c2St2.db.segments.length = 2 ∧
    GetM c2St2 "k" = GetM c2St "k" := by
  obtain ⟨st2, heq, hlen, hwf2, hget⟩ :=
    (c2_amended c2St (runPuts_WF (initState_WF 1) [("k", "v1"), ("k", "v2")])).2 (by decide)
  have hst2 : st2 = c2St2 := by
    rw [c2St2, heq]
    rfl
  rw [← hst2]
  exact ⟨heq, hlen, hget "k"⟩

theorem Reach_WF {st : DbState} (h : Reach st) : WF st := by
  induction h with
  | boot maxSegmentSize => exact initState_WF maxSegmentSize
  | put st k v _ ih => exact Put_WF ih k v
  | compact st st2 _ heq ih =>
    by_cases hlen : st.db.segments.length < 2
    · rw [performCompaction_noop hlen] at heq
      obtain rfl := Except.ok.inj heq
      exact ih
    · obtain ⟨st3, heq2, _, hwf3, _⟩ := performCompaction_spec ih (by omega)
      rw [heq2] at heq
      obtain rfl := Except.ok.inj heq
      exact hwf3
  | reopen st st2 max2 _ heq ih =>
    have heq2 : OpenDb st.fs max2 = .ok st2 := heq
    rw [OpenDb_of_WF ih max2] at heq2
    obtain rfl := Except.ok.inj heq2
    exact OpenDb_WF ih max2

/-- C8: in every reachable state the segment numbers strictly increase
along the segment list, and a `Put` changes no file other than the one
named by the (post-put) last segment — only the active, highest-numbered
segment is ever appended to. -/
theorem c8_segment_invariant (st : DbState) (h : Reach st) :
    List.Pairwise (fun a b : Segment => a.num < b.num) st.db.segments ∧
    (∀ k v x, x ≠ ((Put st k v).db.segments.getLastD ⟨0, "", 0⟩).name →
      alookup (Put st k v).fs x = alookup st.fs x) := by
  constructor
  · have hnums : List.Pairwise (fun a b : Int => a < b)
        (st.db.segments.map Segment.num) := by
      rw [(Reach_WF h).nums, natRangeI, List.pairwise_map]
      exact (List.pairwise_lt_range' 1 _).imp (fun hab => by exact_mod_cast hab)
    exact List.pairwise_map.mp hnums
  · intro k v x hx
    have hfsapp : ∀ (fs : Fs) (name : String) (data : List Nat), x ≠ name →
        alookup (fsAppend fs name data) x = alookup fs x := by
      intro fs name data hxn
      rw [fsAppend]
      cases halk : alookup fs name with
      | none => rfl
      | some c => exact alookup_aset_ne _ _ _ _ (Ne.symm hxn)
    have hlast : ((Put st k v).db.segments.getLastD ⟨0, "", 0⟩).name
        = (putTarget st).1.name := by
      show (((putTarget st).2.1.dropLast
        ++ [(⟨(putTarget st).1.num, (putTarget st).1.name,
            (putTarget st).1.offset + (entry.mk k v).Encode.length⟩ : Segment)]).getLastD
          ⟨0, "", 0⟩).name = _
      rw [List.getLastD_concat]
    rw [hlast] at hx
    show alookup (fsAppend (putTarget st).2.2 (putTarget st).1.name
      (entry.mk k v).Encode) x = alookup st.fs x
    by_cases hroll : st.db.maxSegmentSize
        ≤ ((st.db.segments.getLastD ⟨0, "", 0⟩).offset : Int)
    · have ht : putTarget st
          = ((createNewSegmentM st.fs ((st.db.segments.getLastD ⟨0, "", 0⟩).num + 1)).1,
            st.db.segments
              ++ [(createNewSegmentM st.fs
                ((st.db.segments.getLastD ⟨0, "", 0⟩).num + 1)).1],
            (createNewSegmentM st.fs
              ((st.db.segments.getLastD ⟨0, "", 0⟩).num + 1)).2) := by
        simp only [putTarget]
        rw [if_pos hroll]
      rw [ht] at hx ⊢
      have hx2 : x ≠ segName ((st.db.segments.getLastD ⟨0, "", 0⟩).num + 1) := hx
      refine (hfsapp _ _ _ hx).trans ?_
      exact alookup_aset_ne _ _ _ _ (Ne.symm hx2)
    · have ht : putTarget st
          = (st.db.segments.getLastD ⟨0, "", 0⟩, st.db.segments, st.fs) := by
        simp only [putTarget]
        rw [if_neg hroll]
      rw [ht] at hx ⊢
      exact hfsapp _ _ _ hx

theorem c8_witness :
    List.Pairwise (fun a b : Segment => a.num < b.num) (initState 5).db.segments ∧
    alookup (Put (initState 5) "k" "v").fs "other" = alookup (initState 5).fs "other" := by
  obtain ⟨h1, h2⟩ := c8_segment_invariant (initState 5) (Reach.boot 5)
  exact ⟨h1, h2 "k" "v" "other" (by decide)⟩

end KvStore
